import Mathlib

/-! Verification of `Buffer` (src/buffer.h).

A shallow embedding of the byte buffer of `src/buffer.h` together with the part
of the C++ abstract machine it relies on: a heap of array allocations
(`new value_type[n]`, `delete[]`) and the three raw-memory primitives
`memcpy`, `memmove` and `memset`.

Modelling conventions.

* A pointer is a block identifier plus an offset; the null pointer has no
  block.  Every `new[]` creates a fresh block, `delete[]` marks it dead.
* A freshly allocated `std::byte` holds an indeterminate value; a memory cell
  is therefore an `Option Byte`, `none` standing for "indeterminate".
* Every access the C++ standard leaves undefined (null or dangling pointer,
  out-of-bounds range, `memcpy` between two different overlapping ranges,
  `delete[]` of something that is not a live array, comparing a byte whose
  value is indeterminate) is reported as a `Fault`; a raw-memory primitive
  called with a byte count of zero touches nothing and succeeds, and `memcpy`
  of a range onto itself leaves the bytes as they were.
* Allocation always succeeds and sizes are natural numbers: two objects that
  exist at the same time have sizes whose sum fits in 64 bits, so the
  `uint64_t` arithmetic of the source never wraps on reachable states.
* Pointer subtraction is truncated subtraction of offsets.  It coincides with
  the source whenever the minuend is not below the subtrahend, which holds for
  every call within the documented preconditions.
* A byte source (`std::string_view`, anything with `.data()` and `.size()`)
  is the list of its bytes; it lives outside the buffer's storage.
-/

namespace BufferModel

/-- One `std::byte`. -/
abbrev Byte := Fin 256

/-- A memory cell: `none` is an indeterminate value. -/
abbrev Cell := Option Byte

/-- Undefined behaviour detected by the memory model. -/
inductive Fault
  | nullDeref
  | invalidPointer
  | useAfterFree
  | outOfBounds
  | overlap
  | badFree
  | indeterminateRead
deriving DecidableEq, Repr

/-- A `value_type*`: the block it points into (`none` for a pointer derived
from `nullptr`) and the offset inside that block. -/
structure Ptr where
  blk : Option Nat
  off : Nat
deriving DecidableEq, Repr

/-- The null pointer `nullptr`. -/
def nullptr : Ptr := ⟨none, 0⟩

/-- Pointer plus integer, `p + n`. -/
def Ptr.add (p : Ptr) (n : Nat) : Ptr := ⟨p.blk, p.off + n⟩

/-- Pointer difference `p - q` (see the conventions above). -/
def Ptr.diff (p q : Ptr) : Nat := p.off - q.off

/-- Contextual conversion to `bool`, as in `if (_begin)`. -/
def Ptr.isNonNull (p : Ptr) : Bool := p != nullptr

/-- One array allocation. -/
structure Block where
  live : Bool
  cells : List Cell
deriving DecidableEq, Repr

/-- The heap: block `k` is the `k`-th allocation ever made. -/
abbrev Heap := List Block

/-- The expression `new value_type[n]`: a fresh block of `n` indeterminate bytes. -/
def alloc (h : Heap) (n : Nat) : Heap × Ptr :=
  (h ++ [⟨true, List.replicate n none⟩], ⟨some h.length, 0⟩)

/-- The statement `delete[] p`. -/
def free (h : Heap) (p : Ptr) : Except Fault Heap :=
  match p.blk with
  | none => .error .badFree
  | some k =>
    match h[k]? with
    | none => .error .badFree
    | some b =>
      if b.live = true ∧ p.off = 0 then .ok (h.set k ⟨false, b.cells⟩)
      else .error .badFree

/-- Read `n` cells starting at `p`. -/
def load (h : Heap) (p : Ptr) (n : Nat) : Except Fault (List Cell) :=
  if n = 0 then .ok []
  else
    match p.blk with
    | none => .error .nullDeref
    | some k =>
      match h[k]? with
      | none => .error .invalidPointer
      | some b =>
        if b.live = false then .error .useAfterFree
        else if p.off + n ≤ b.cells.length then .ok ((b.cells.drop p.off).take n)
        else .error .outOfBounds

/-- Write the cells `cs` starting at `p`. -/
def store (h : Heap) (p : Ptr) (cs : List Cell) : Except Fault Heap :=
  if cs.length = 0 then .ok h
  else
    match p.blk with
    | none => .error .nullDeref
    | some k =>
      match h[k]? with
      | none => .error .invalidPointer
      | some b =>
        if b.live = false then .error .useAfterFree
        else if p.off + cs.length ≤ b.cells.length then
          .ok (h.set k ⟨true, b.cells.take p.off ++ cs ++ b.cells.drop (p.off + cs.length)⟩)
        else .error .outOfBounds

/-- Whether the ranges `[p, p+n)` and `[q, q+n)` share a byte. -/
def rangesOverlap (p q : Ptr) (n : Nat) : Bool :=
  p.blk == q.blk && (decide (p.off < q.off + n) && decide (q.off < p.off + n))

/-- The call `memcpy(dst, src, n)`.  Ranges that overlap with `dst` different
from `src` are a fault.  Copying a range onto itself (`dst = src`, as in the
self-assignment `b = b`) writes back the bytes it has read: that is what every
implementation of `memcpy` does, and the bytes are left as they were. -/
def memcpy (h : Heap) (dst src : Ptr) (n : Nat) : Except Fault Heap :=
  match load h src n with
  | .error e => .error e
  | .ok cs =>
    if n ≠ 0 ∧ dst ≠ src ∧ rangesOverlap dst src n = true then .error .overlap
    else store h dst cs

/-- The call `memmove(dst, src, n)`: like `memcpy`, overlap allowed. -/
def memmove (h : Heap) (dst src : Ptr) (n : Nat) : Except Fault Heap :=
  match load h src n with
  | .error e => .error e
  | .ok cs => store h dst cs

/-- The call `memset(dst, v, n)`. -/
def memset (h : Heap) (dst : Ptr) (v : Byte) (n : Nat) : Except Fault Heap :=
  store h dst (List.replicate n (some v))

/-- The call `memcpy(dst, other.data(), other.size())` for a byte source
`other` that lives outside the heap of buffer storage. -/
def memcpyFrom (h : Heap) (dst : Ptr) (other : List Byte) : Except Fault Heap :=
  store h dst (other.map some)

/-- The enumeration `Buffer::Options` (`Default` is `Uninitialize`). -/
inductive Options
  | Uninitialize
  | Initialize
  | Shrink
deriving DecidableEq, Repr

/-- The enumerator `Options::Default = Uninitialize`. -/
def Options.Default : Options := Options.Uninitialize

/-- The three data members of `class Buffer`. -/
structure Buffer where
  _begin : Ptr
  _end : Ptr
  _endOfStorage : Ptr
deriving DecidableEq, Repr

namespace Buffer

/-- The default constructor `Buffer()`. -/
def empty : Buffer := ⟨nullptr, nullptr, nullptr⟩

/-- The accessor `size()`. -/
def size (b : Buffer) : Nat := b._end.diff b._begin

/-- The accessor `capacity()`. -/
def capacity (b : Buffer) : Nat := b._endOfStorage.diff b._begin

/-- The accessor `begin()`. -/
def begin (b : Buffer) : Ptr := b._begin

/-- Reading the `std::string_view` returned by `toString()`: the `size()`
cells starting at `_begin`. -/
def toString (h : Heap) (b : Buffer) : Except Fault (List Cell) :=
  load h b._begin b.size

/-- The guarded release `if (_begin) delete[] _begin;`. -/
def release (h : Heap) (b : Buffer) : Except Fault Heap :=
  if b._begin.isNonNull then free h b._begin else .ok h

/-- The constructor `Buffer(uint64_t size, Options options)`. -/
def sized (h : Heap) (size : Nat) (options : Options) : Except Fault (Heap × Buffer) :=
  let (h1, p) := alloc h size
  let b : Buffer := ⟨p, p.add size, p.add size⟩
  if options = .Initialize then
    match memset h1 p 0 size with
    | .error e => .error e
    | .ok h2 => .ok (h2, b)
  else .ok (h1, b)

/-- The member `void swap(Buffer& other)`: returns the new `*this` and the
new `other`. -/
def swap (self other : Buffer) : Buffer × Buffer :=
  (⟨other._begin, other._end, other._endOfStorage⟩,
   ⟨self._begin, self._end, self._endOfStorage⟩)

/-- The move assignment `operator=(Buffer&& other)`: `swap(other)`. -/
def moveAssign (self other : Buffer) : Buffer × Buffer := swap self other

/-- The move constructor `Buffer(Buffer&& other) : Buffer()`: delegate to the
default constructor, then `swap(other)`. -/
def moveConstruct (other : Buffer) : Buffer × Buffer := swap empty other

/-- The member `reserve(uint64_t newSize)`. -/
def reserve (h : Heap) (b : Buffer) (newSize : Nat) : Except Fault (Heap × Buffer) :=
  if b.capacity < newSize then
    let oldSize := b.size
    let (h1, newStorage) := alloc h newSize
    match memcpy h1 newStorage b._begin oldSize with
    | .error e => .error e
    | .ok h2 =>
      match release h2 b with
      | .error e => .error e
      | .ok h3 => .ok (h3, ⟨newStorage, newStorage.add oldSize, newStorage.add newSize⟩)
  else .ok (h, b)

/-- The member `resize(uint64_t newSize, Options options)`. -/
def resize (h : Heap) (b : Buffer) (newSize : Nat) (options : Options) :
    Except Fault (Heap × Buffer) :=
  let oldSize := b.size
  if newSize = 0 ∧ options = .Shrink then
    match release h b with
    | .error e => .error e
    | .ok h1 => .ok (h1, ⟨nullptr, nullptr, nullptr⟩)
  else
    let r : Except Fault (Heap × Buffer) :=
      if options = .Shrink ∨ b.capacity < newSize then
        let (h1, newStorage) := alloc h newSize
        match memcpy h1 newStorage b._begin oldSize with
        | .error e => .error e
        | .ok h2 =>
          match release h2 b with
          | .error e => .error e
          | .ok h3 => .ok (h3, ⟨newStorage, b._end, newStorage.add newSize⟩)
      else .ok (h, b)
    match r with
    | .error e => .error e
    | .ok (h4, b1) =>
      let b2 : Buffer := ⟨b1._begin, b1._begin.add newSize, b1._endOfStorage⟩
      if options = .Initialize ∧ oldSize < newSize then
        match memset h4 (b2._begin.add oldSize) 0 (newSize - oldSize) with
        | .error e => .error e
        | .ok h5 => .ok (h5, b2)
      else .ok (h4, b2)

/-- The member template `assign(const T& other)` for a byte source. -/
def assign (h : Heap) (b : Buffer) (other : List Byte) : Except Fault (Heap × Buffer) :=
  let newSize := other.length
  let r : Except Fault (Heap × Buffer) :=
    if newSize > b.capacity ∨ b._begin.isNonNull = false then
      match release h b with
      | .error e => .error e
      | .ok h1 =>
        let (h2, p) := alloc h1 newSize
        .ok (h2, ⟨p, b._end, p.add newSize⟩)
    else .ok (h, b)
  match r with
  | .error e => .error e
  | .ok (h3, b1) =>
    let b2 : Buffer := ⟨b1._begin, b1._begin.add newSize, b1._endOfStorage⟩
    match memcpyFrom h3 b2._begin other with
    | .error e => .error e
    | .ok h4 => .ok (h4, b2)

/-- The constructor `explicit Buffer(std::string_view other) { assign(other); }`.
It has no member initialisers, so when `assign` runs the three pointers hold
whatever the object's storage held before: the indeterminate values `raw`. -/
def ofStringView (h : Heap) (raw : Buffer) (other : List Byte) :
    Except Fault (Heap × Buffer) :=
  assign h raw other

/-- The member template `insert(const_iterator position, const T& other)`. -/
def insert (h : Heap) (b : Buffer) (position : Ptr) (other : List Byte) :
    Except Fault (Heap × Buffer) :=
  let otherSize := other.length
  let newSize := b.size + otherSize
  let r : Except Fault (Heap × Buffer) :=
    if b.capacity < newSize then
      let (h1, newStorage) := alloc h newSize
      match memcpy h1 newStorage b._begin (position.diff b._begin) with
      | .error e => .error e
      | .ok h2 =>
        match memcpy h2 ((newStorage.add (position.diff b._begin)).add otherSize)
            position (b._end.diff position) with
        | .error e => .error e
        | .ok h3 =>
          match release h3 b with
          | .error e => .error e
          | .ok h4 => .ok (h4, ⟨newStorage, b._end, newStorage.add newSize⟩)
    else
      match memmove h (position.add otherSize) position (b._end.diff position) with
      | .error e => .error e
      | .ok h1 => .ok (h1, b)
  match r with
  | .error e => .error e
  | .ok (h5, b1) =>
    let b2 : Buffer := ⟨b1._begin, b1._begin.add newSize, b1._endOfStorage⟩
    match memcpyFrom h5 position other with
    | .error e => .error e
    | .ok h6 => .ok (h6, b2)

end Buffer

/-- Block `k` of the heap is a live array of exactly `cap` cells. -/
def ownsBlock (h : Heap) (k cap : Nat) : Prop :=
  match h[k]? with
  | some b => b.live = true ∧ b.cells.length = cap
  | none => False

instance (h : Heap) (k cap : Nat) : Decidable (ownsBlock h k cap) := by
  unfold ownsBlock; split <;> infer_instance

/-- The class invariant of a `Buffer` object that owns its storage. -/
def Buffer.WF (h : Heap) (b : Buffer) : Prop :=
  match b._begin.blk with
  | none => b = Buffer.empty
  | some k =>
    b._begin.off = 0 ∧ b._end.blk = some k ∧ b._endOfStorage.blk = some k ∧
      b._end.off ≤ b._endOfStorage.off ∧ ownsBlock h k b._endOfStorage.off

instance (h : Heap) (b : Buffer) : Decidable (Buffer.WF h b) := by
  unfold Buffer.WF; split <;> infer_instance

/-- Abstraction relation: the buffer `b` owns storage holding `cells`, of which
the first `s` are live (no storage at all when `b` is the empty buffer). -/
def Buffer.Rep (h : Heap) (b : Buffer) (cells : List Cell) (s : Nat) : Prop :=
  (b = Buffer.empty ∧ cells = [] ∧ s = 0) ∨
  ∃ k, b = ⟨⟨some k, 0⟩, ⟨some k, s⟩, ⟨some k, cells.length⟩⟩ ∧
    s ≤ cells.length ∧ h[k]? = some ⟨true, cells⟩

/-- Pointer minus integer, `p - n` (only formed here with `n <= p.off`). -/
def Ptr.sub (p : Ptr) (n : Nat) : Ptr := ⟨p.blk, p.off - n⟩

namespace Buffer

/-- The accessor `end()` (`end` is a reserved word of Lean). -/
def end_ (b : Buffer) : Ptr := b._end

/-- The accessor `empty()`; the name `empty` denotes the default-constructed
buffer in this development. -/
def isEmpty (b : Buffer) : Bool := b._begin == b._end

/-- The member `clear()`. -/
def clear (b : Buffer) : Buffer := ⟨b._begin, b._begin, b._endOfStorage⟩

/-- The member `iterator erase(const_iterator position)`; the third component
is the returned iterator. -/
def erase (h : Heap) (b : Buffer) (position : Ptr) : Except Fault (Heap × Buffer × Ptr) :=
  let begin := position
  let b1 : Buffer := ⟨b._begin, b._end.sub 1, b._endOfStorage⟩
  match memmove h begin (begin.add 1) (b1._end.diff begin) with
  | .error e => .error e
  | .ok h1 => .ok (h1, b1, begin)

/-- The member `iterator erase(const_iterator first, const_iterator last)`. -/
def eraseRange (h : Heap) (b : Buffer) (first last : Ptr) :
    Except Fault (Heap × Buffer × Ptr) :=
  let begin := first
  let size := last.diff first
  let b1 : Buffer := ⟨b._begin, b._end.sub size, b._endOfStorage⟩
  match memmove h begin (begin.add size) (b1._end.diff begin) with
  | .error e => .error e
  | .ok h1 => .ok (h1, b1, begin)

/-- The copy assignment `operator=(const Buffer& other)`. -/
def copyAssign (h : Heap) (self other : Buffer) : Except Fault (Heap × Buffer) :=
  let newSize := other.size
  let r : Except Fault (Heap × Buffer) :=
    if self.capacity < newSize then
      let (h1, newStorage) := alloc h newSize
      match release h1 self with
      | .error e => .error e
      | .ok h2 => .ok (h2, ⟨newStorage, self._end, newStorage.add newSize⟩)
    else .ok (h, self)
  match r with
  | .error e => .error e
  | .ok (h3, b1) =>
    let b2 : Buffer := ⟨b1._begin, b1._begin.add newSize, b1._endOfStorage⟩
    match memcpy h3 b2._begin other._begin newSize with
    | .error e => .error e
    | .ok h4 => .ok (h4, b2)

end Buffer

/-- The call sequence `b.insert(b.begin() + p, x); b.erase(b.begin() + p);`. -/
def Buffer.insertThenErase (h : Heap) (b : Buffer) (p : Nat) (x : List Byte) :
    Except Fault (Heap × Buffer × Ptr) :=
  match b.insert h (b.begin.add p) x with
  | .error e => .error e
  | .ok (h1, b1) => b1.erase h1 (b1.begin.add p)

/-- The friend function `swap(Buffer& lhs, Buffer& rhs)`: `lhs.swap(rhs)`. -/
def swap (lhs rhs : Buffer) : Buffer × Buffer := lhs.swap rhs

/-- The algorithm `std::equal(first1, first1 + n, first2)`: compare the two
ranges byte by byte and stop at the first difference.  Comparing a byte whose
value is indeterminate is undefined. -/
def stdEqual (h : Heap) : Nat → Ptr → Ptr → Except Fault Bool
  | 0, _, _ => .ok true
  | n + 1, first1, first2 =>
    match load h first1 1, load h first2 1 with
    | .error e, _ => .error e
    | _, .error e => .error e
    | .ok [some x], .ok [some y] =>
      if x = y then stdEqual h n (first1.add 1) (first2.add 1) else .ok false
    | .ok _, .ok _ => .error .indeterminateRead

namespace Buffer

/-- The friend `operator==`:
`lhs.size() == rhs.size() && std::equal(lhs.begin(), lhs.end(), rhs.begin())`. -/
def operatorEq (h : Heap) (lhs rhs : Buffer) : Except Fault Bool :=
  if lhs.size = rhs.size then stdEqual h (lhs.end_.diff lhs.begin) lhs.begin rhs.begin
  else .ok false

/-- The friend `operator!=`: `!(lhs == rhs)`. -/
def operatorNe (h : Heap) (lhs rhs : Buffer) : Except Fault Bool :=
  match operatorEq h lhs rhs with
  | .error e => .error e
  | .ok r => .ok (!r)

end Buffer

/-- Number of cells of the block a pointer points into (0 for a pointer that
points into no block). -/
def blockLength (h : Heap) (p : Ptr) : Nat :=
  match p.blk with
  | none => 0
  | some k =>
    match h[k]? with
    | none => 0
    | some b => b.cells.length

/-- The loop `for (auto c = first; c != last; ++c) visit(*c)`: the cells
visited, in order. -/
def traverse (h : Heap) (c last : Ptr) : Except Fault (List Cell) :=
  if c = last then .ok []
  else
    match _hl : load h c 1 with
    | .error e => .error e
    | .ok cs =>
      match traverse h (c.add 1) last with
      | .error e => .error e
      | .ok rest => .ok (cs ++ rest)
termination_by blockLength h c - c.off
decreasing_by
  unfold load at _hl
  simp only [blockLength, Ptr.add]
  simp only [Nat.succ_ne_zero, ↓reduceIte] at _hl
  split at _hl
  · cases _hl
  · split at _hl
    · cases _hl
    · split at _hl
      · cases _hl
      · split at _hl
        · omega
        · cases _hl

/-- A `std::reverse_iterator<pointer>`: it wraps `base` and dereferences to
`*(base - 1)`. -/
structure ReverseIterator where
  base : Ptr
deriving DecidableEq, Repr

/-- The accessor `rbegin()`: `reverse_iterator(_end)`. -/
def Buffer.rbegin (b : Buffer) : ReverseIterator := ⟨b._end⟩

/-- The accessor `rend()`: `reverse_iterator(_begin)`. -/
def Buffer.rend (b : Buffer) : ReverseIterator := ⟨b._begin⟩

/-- The loop `for (auto c = first; c != last; ++c) visit(*c)` over reverse
iterators: `*c` is `*(base - 1)` and `++c` decrements `base`.  Stepping below
the start of an array is out of bounds. -/
def rtraverse (h : Heap) (c last : ReverseIterator) : Except Fault (List Cell) :=
  if c = last then .ok []
  else if _hz : c.base.off = 0 then .error .outOfBounds
  else
    match load h (c.base.sub 1) 1 with
    | .error e => .error e
    | .ok cs =>
      match rtraverse h ⟨c.base.sub 1⟩ last with
      | .error e => .error e
      | .ok rest => .ok (cs ++ rest)
termination_by c.base.off
decreasing_by
  simp only [Ptr.sub]
  omega

/-- The state predicate of the data model: `size <= capacity`, and a buffer
without storage has size and capacity 0. -/
def Buffer.Inv (b : Buffer) : Prop :=
  b.size ≤ b.capacity ∧ (b._begin = nullptr → b.size = 0 ∧ b.capacity = 0)

instance (b : Buffer) : Decidable b.Inv := by
  unfold Buffer.Inv; infer_instance

/-- The byte count passed to `memcpy(newStorage, _begin, oldSize)` on the
reallocating branch of `resize`: `oldSize`, that is `size()` on entry. -/
def Buffer.resizeCopyLength (b : Buffer) (_newSize : Nat) : Nat := b.size

/-- A heap with two live arrays, holding `"abc"` and `"x"`. -/
def exampleHeap : Heap := [⟨true, [some 97, some 98, some 99]⟩, ⟨true, [some 120]⟩]

/-- The buffer that owns the first array of `exampleHeap`: `"abc"`, full. -/
def exampleAbc : Buffer := ⟨⟨some 0, 0⟩, ⟨some 0, 3⟩, ⟨some 0, 3⟩⟩

/-! ## The class invariant -/

theorem Buffer.WF.cases {h : Heap} {b : Buffer} (hwf : b.WF h) :
    b = Buffer.empty ∨
    ∃ k s cells, b = ⟨⟨some k, 0⟩, ⟨some k, s⟩, ⟨some k, cells.length⟩⟩ ∧
      s ≤ cells.length ∧ h[k]? = some ⟨true, cells⟩ := by
  obtain ⟨⟨bb, bo⟩, ⟨eb, eo⟩, ⟨sb, so⟩⟩ := b
  cases bb with
  | none => left; simpa [Buffer.WF] using hwf
  | some k =>
    right
    simp only [Buffer.WF, ownsBlock] at hwf
    obtain ⟨h1, h2, h3, h4, h5⟩ := hwf
    cases hk : h[k]? with
    | none => simp [hk] at h5
    | some blk =>
      obtain ⟨lv, cells⟩ := blk
      simp [hk] at h5
      obtain ⟨h5, h6⟩ := h5
      subst h1 h2 h3 h5 h6
      exact ⟨k, eo, cells, rfl, h4, hk⟩

/-! ## The memory primitives on a block that is known to be live -/

theorem lt_of_getElem? {h : Heap} {k : Nat} {b : Block} (hk : h[k]? = some b) :
    k < h.length := by
  by_contra hc
  rw [List.getElem?_eq_none (by omega)] at hk
  cases hk

theorem load_ok {h : Heap} {k : Nat} {cells : List Cell} (hk : h[k]? = some ⟨true, cells⟩)
    (o n : Nat) (hb : o + n ≤ cells.length) :
    load h ⟨some k, o⟩ n = .ok ((cells.drop o).take n) := by
  unfold load
  by_cases hn : n = 0
  · simp [hn]
  · simp [hn, hk, hb]

theorem store_ok {h : Heap} {k : Nat} {cells : List Cell} (hk : h[k]? = some ⟨true, cells⟩)
    (o : Nat) (cs : List Cell) (hb : o + cs.length ≤ cells.length) :
    store h ⟨some k, o⟩ cs =
      .ok (h.set k ⟨true, cells.take o ++ cs ++ cells.drop (o + cs.length)⟩) := by
  unfold store
  by_cases hn : cs.length = 0
  · have hcs : cs = [] := List.length_eq_zero.mp hn
    subst hcs
    simp only [List.length_nil, ↓reduceIte, List.append_nil, Nat.add_zero,
      List.take_append_drop]
    congr 1
    apply List.ext_getElem?
    intro i
    by_cases hi : i = k
    · subst hi; rw [List.getElem?_set_self (lt_of_getElem? hk)]; exact hk
    · rw [List.getElem?_set_ne (Ne.symm hi)]
  · simp [hn, hk, hb]

theorem store_spec {h : Heap} {k : Nat} {cells : List Cell} (hk : h[k]? = some ⟨true, cells⟩)
    (o : Nat) (cs : List Cell) (hb : o + cs.length ≤ cells.length) :
    ∃ h1, store h ⟨some k, o⟩ cs = .ok h1 ∧ h1.length = h.length ∧
      h1[k]? = some ⟨true, cells.take o ++ cs ++ cells.drop (o + cs.length)⟩ ∧
      ∀ j, j ≠ k → h1[j]? = h[j]? := by
  refine ⟨_, store_ok hk o cs hb, by simp, ?_, ?_⟩
  · rw [List.getElem?_set_self (lt_of_getElem? hk)]
  · intro j hj
    rw [List.getElem?_set_ne (Ne.symm hj)]

theorem free_ok {h : Heap} {k : Nat} {cells : List Cell} (hk : h[k]? = some ⟨true, cells⟩) :
    free h ⟨some k, 0⟩ = .ok (h.set k ⟨false, cells⟩) := by
  simp [free, hk]

theorem alloc_fst (h : Heap) (n : Nat) :
    (alloc h n).1 = h ++ [⟨true, List.replicate n none⟩] := rfl

theorem alloc_snd (h : Heap) (n : Nat) : (alloc h n).2 = ⟨some h.length, 0⟩ := rfl

theorem getElem?_alloc_old {h : Heap} {k : Nat} {b : Block} (hk : h[k]? = some b) (n : Nat) :
    (h ++ [(⟨true, List.replicate n none⟩ : Block)])[k]? = some b := by
  rw [List.getElem?_append_left (lt_of_getElem? hk)]; exact hk

theorem getElem?_alloc_new (h : Heap) (n : Nat) :
    (h ++ [(⟨true, List.replicate n none⟩ : Block)])[h.length]? =
      some ⟨true, List.replicate n none⟩ := by
  simp

/-! ## The abstraction relation -/

namespace Buffer

theorem WF.rep {h : Heap} {b : Buffer} (hwf : b.WF h) : ∃ cells s, b.Rep h cells s := by
  rcases hwf.cases with he | ⟨k, s, cells, hb, hs, hk⟩
  · exact ⟨[], 0, Or.inl ⟨he, rfl, rfl⟩⟩
  · exact ⟨cells, s, Or.inr ⟨k, hb, hs, hk⟩⟩

theorem Rep.le {h : Heap} {b : Buffer} {cells : List Cell} {s : Nat}
    (hr : b.Rep h cells s) : s ≤ cells.length := by
  rcases hr with ⟨_, hc, hs⟩ | ⟨k, _, hs, _⟩
  · subst hc hs; simp
  · exact hs

theorem Rep.size {h : Heap} {b : Buffer} {cells : List Cell} {s : Nat}
    (hr : b.Rep h cells s) : b.size = s := by
  rcases hr with ⟨hb, _, hs⟩ | ⟨k, hb, _, _⟩
  · subst hb hs; rfl
  · subst hb; simp [Buffer.size, Ptr.diff]

theorem Rep.capacity {h : Heap} {b : Buffer} {cells : List Cell} {s : Nat}
    (hr : b.Rep h cells s) : b.capacity = cells.length := by
  rcases hr with ⟨hb, hc, _⟩ | ⟨k, hb, _, _⟩
  · subst hb hc; rfl
  · subst hb; simp [Buffer.capacity, Ptr.diff]

theorem Rep.toString {h : Heap} {b : Buffer} {cells : List Cell} {s : Nat}
    (hr : b.Rep h cells s) : b.toString h = .ok (cells.take s) := by
  rcases hr with ⟨hb, hc, hs⟩ | ⟨k, hb, hs, hk⟩
  · subst hb hc hs; rfl
  · subst hb
    have := load_ok hk 0 s (by omega)
    simpa [Buffer.toString, Buffer.size, Ptr.diff] using this

theorem Rep.wf {h : Heap} {b : Buffer} {cells : List Cell} {s : Nat}
    (hr : b.Rep h cells s) : b.WF h := by
  rcases hr with ⟨hb, _, _⟩ | ⟨k, hb, hs, hk⟩
  · subst hb; simp [Buffer.WF, Buffer.empty, nullptr]
  · subst hb; simp [Buffer.WF, ownsBlock, hk, hs]

theorem Rep.isNonNull_eq_false {h : Heap} {b : Buffer} {cells : List Cell} {s : Nat}
    (hr : b.Rep h cells s) (hn : b._begin.isNonNull = false) : b = Buffer.empty := by
  rcases hr with ⟨hb, _, _⟩ | ⟨k, hb, _, _⟩
  · exact hb
  · subst hb; simp [Ptr.isNonNull, nullptr] at hn

/-- The reallocation idiom shared by `reserve` and `resize`: allocate `n`
cells, copy the first `m` old cells into them, release the old storage. -/
theorem Rep.realloc_copy {h : Heap} {b : Buffer} {cells : List Cell} {s : Nat}
    (hr : b.Rep h cells s) (m n : Nat) (hm : m ≤ cells.length) (hmn : m ≤ n) :
    ∃ h2 h3, memcpy (alloc h n).1 (alloc h n).2 b._begin m = .ok h2 ∧
      release h2 b = .ok h3 ∧ h3.length = h.length + 1 ∧
      h3[h.length]? = some ⟨true, cells.take m ++ List.replicate (n - m) none⟩ := by
  rcases hr with ⟨hb, hc, hs⟩ | ⟨k, hb, hs, hk⟩
  · subst hb hc hs
    have hm0 : m = 0 := by simpa using hm
    subst hm0
    refine ⟨_, _, rfl, rfl, ?_, ?_⟩ <;> simp [alloc]
  · subst hb
    have hlt := lt_of_getElem? hk
    have hne : k ≠ h.length := by omega
    have hld : load (alloc h n).1 ⟨some k, 0⟩ m = .ok (cells.take m) := by
      have := load_ok (getElem?_alloc_old hk n) 0 m (by omega)
      simpa [alloc_fst] using this
    have hst : store (alloc h n).1 ⟨some h.length, 0⟩ (cells.take m) =
        .ok (h ++ [⟨true, cells.take m ++ List.replicate (n - m) none⟩]) := by
      have := store_ok (getElem?_alloc_new h n) 0 (cells.take m)
        (by simp; omega)
      rw [alloc_fst, this]
      simp [List.length_take, Nat.min_eq_left hm]
    have hov : rangesOverlap (alloc h n).2 ⟨some k, 0⟩ m = false := by
      simp [rangesOverlap, alloc, Ne.symm hne]
    refine ⟨h ++ [(⟨true, cells.take m ++ List.replicate (n - m) none⟩ : Block)],
      (h ++ [(⟨true, cells.take m ++ List.replicate (n - m) none⟩ : Block)]).set k
      ⟨false, cells⟩, ?_, ?_, ?_, ?_⟩
    · simp only [memcpy, hld, hov]
      simpa using hst
    · have hk2 : (h ++ [(⟨true, cells.take m ++ List.replicate (n - m) none⟩ : Block)])[k]? =
          some ⟨true, cells⟩ := by
        rw [List.getElem?_append_left hlt]; exact hk
      simp [release, Ptr.isNonNull, nullptr, free_ok hk2]
    · simp
    · rw [List.getElem?_set_ne hne]; simp

end Buffer

/-! ## `reserve` -/

namespace Buffer

theorem Rep.ofBlock {h : Heap} {k : Nat} {cells : List Cell} {s c : Nat} {b : Buffer}
    (hk : h[k]? = some ⟨true, cells⟩) (hs : s ≤ cells.length) (hc : c = cells.length)
    (h1 : b._begin = ⟨some k, 0⟩) (h2 : b._end = ⟨some k, s⟩)
    (h3 : b._endOfStorage = ⟨some k, c⟩) : b.Rep h cells s := by
  obtain ⟨bb, be, bs⟩ := b
  simp only at h1 h2 h3
  subst h1 h2 h3 hc
  exact Or.inr ⟨k, rfl, hs, hk⟩

theorem Rep.release_ok {h : Heap} {b : Buffer} {cells : List Cell} {s : Nat}
    (hr : b.Rep h cells s) : ∃ h1, release h b = .ok h1 ∧ h1.length = h.length := by
  rcases hr with ⟨hb, _, _⟩ | ⟨k, hb, _, hk⟩
  · subst hb; exact ⟨h, rfl, rfl⟩
  · subst hb
    refine ⟨h.set k ⟨false, cells⟩, ?_, by simp⟩
    simp [release, Ptr.isNonNull, nullptr, free_ok hk]

theorem Rep.reserve {h : Heap} {b : Buffer} {cells : List Cell} {s : Nat}
    (hr : b.Rep h cells s) (n : Nat) :
    ∃ h1 b1, b.reserve h n = .ok (h1, b1) ∧
      b1.Rep h1 (if cells.length < n then cells.take s ++ List.replicate (n - s) none
        else cells) s := by
  have hle := hr.le
  by_cases hc : cells.length < n
  · obtain ⟨h2, h3, e1, e2, _, hg⟩ := hr.realloc_copy s n hle (by omega)
    simp only [alloc] at e1
    refine ⟨h3, ⟨⟨some h.length, 0⟩, ⟨some h.length, s⟩, ⟨some h.length, n⟩⟩, ?_, ?_⟩
    · simp [Buffer.reserve, hr.capacity, hr.size, hc, alloc, e1, e2, Ptr.add]
    · rw [if_pos hc]
      exact Rep.ofBlock hg (by simp; omega) (by simp; omega) rfl rfl rfl
  · refine ⟨h, b, ?_, ?_⟩
    · simp [Buffer.reserve, hr.capacity, hc]
    · rw [if_neg hc]; exact hr

end Buffer

/-- C7: `reserve(n)` on any buffer succeeds, makes the capacity `max(c, n)` and
leaves the size and the live bytes as they were. -/
theorem reserve_capacity_max_content_kept (h : Heap) (b : Buffer) (n : Nat) (L : List Cell)
    (hwf : b.WF h) (hL : b.toString h = .ok L) :
    ∃ h1 b1, b.reserve h n = .ok (h1, b1) ∧
      b1.capacity = max b.capacity n ∧ b1.size = b.size ∧ b1.toString h1 = .ok L := by
  obtain ⟨cells, s, hr⟩ := hwf.rep
  obtain ⟨h1, b1, he, hr1⟩ := hr.reserve n
  have hle := hr.le
  refine ⟨h1, b1, he, ?_, ?_, ?_⟩
  · rw [hr1.capacity, hr.capacity]
    split <;> simp <;> omega
  · rw [hr1.size, hr.size]
  · rw [hr1.toString]
    rw [hr.toString] at hL
    cases hL
    split
    · simp [List.take_append_of_le_length, hle]
    · rfl

theorem reserve_capacity_max_content_kept_witness :
    ∃ h1 b1, Buffer.reserve [⟨true, [some 97, some 98, some 99]⟩]
        ⟨⟨some 0, 0⟩, ⟨some 0, 3⟩, ⟨some 0, 3⟩⟩ 200 = .ok (h1, b1) ∧
      b1.capacity = max (Buffer.capacity ⟨⟨some 0, 0⟩, ⟨some 0, 3⟩, ⟨some 0, 3⟩⟩) 200 ∧
      b1.size = Buffer.size ⟨⟨some 0, 0⟩, ⟨some 0, 3⟩, ⟨some 0, 3⟩⟩ ∧
      b1.toString h1 = .ok [some 97, some 98, some 99] :=
  reserve_capacity_max_content_kept _ _ 200 _ (by decide) rfl

/-! ## `resize` -/

namespace Buffer

theorem Rep.resize_shrink_zero {h : Heap} {b : Buffer} {cells : List Cell} {s : Nat}
    (hr : b.Rep h cells s) :
    ∃ h1, b.resize h 0 .Shrink = .ok (h1, Buffer.empty) ∧ h1.length = h.length := by
  obtain ⟨h1, e1, hl⟩ := hr.release_ok
  exact ⟨h1, by simp [Buffer.resize, e1, Buffer.empty], hl⟩

theorem length_take_append_replicate (cells : List Cell) (s n : Nat) (x : Cell)
    (hs : s ≤ cells.length) (hsn : s ≤ n) :
    (cells.take s ++ List.replicate (n - s) x).length = n := by
  simp; omega

theorem take_take_append_replicate (cells : List Cell) (s n : Nat) (x : Cell)
    (hs : s ≤ cells.length) (hsn : s ≤ n) :
    List.take s (List.take n (cells.take s ++ List.replicate (n - s) x)) = cells.take s := by
  rw [List.take_take, Nat.min_eq_left hsn, List.take_append_of_le_length (by simp; omega),
    List.take_take, Nat.min_self]

theorem Rep.resize_realloc {h : Heap} {b : Buffer} {cells : List Cell} {s : Nat}
    (hr : b.Rep h cells s) (n : Nat) (opt : Options)
    (hre : opt = .Shrink ∨ cells.length < n) (hnz : ¬(n = 0 ∧ opt = .Shrink)) (hsn : s ≤ n) :
    ∃ h1 b1, b.resize h n opt = .ok (h1, b1) ∧
      b1.Rep h1 (cells.take s ++
        List.replicate (n - s) (if opt = .Initialize then some 0 else none)) n := by
  have hle := hr.le
  obtain ⟨h2, h3, e1, e2, hl, hg⟩ := hr.realloc_copy s n hle hsn
  simp only [alloc] at e1
  have hlen := length_take_append_replicate cells s n
  by_cases hi : opt = .Initialize ∧ s < n
  · have hc : cells.length < n := by
      rcases hre with ho | hc
      · rw [hi.1] at ho; cases ho
      · exact hc
    obtain ⟨h4, hst, _, hg4, _⟩ := store_spec hg s (List.replicate (n - s) (some (0 : Byte)))
      (by rw [hlen none hle hsn]; simp; omega)
    refine ⟨h4, ⟨⟨some h.length, 0⟩, ⟨some h.length, n⟩, ⟨some h.length, n⟩⟩, ?_, ?_⟩
    · simp [Buffer.resize, hnz, hr.capacity, hr.size, hc, alloc, e1, e2, Ptr.add, hi,
        memset, hst]
    · have hcells : cells.take s ++ List.replicate (n - s) (some (0 : Byte)) =
          List.take s (cells.take s ++ List.replicate (n - s) none) ++
            List.replicate (n - s) (some 0) ++
            List.drop (s + (List.replicate (n - s) (some (0 : Byte))).length)
              (cells.take s ++ List.replicate (n - s) none) := by
        rw [List.drop_eq_nil_of_le (by rw [hlen none hle hsn]; simp; omega)]
        simp [List.take_append_of_le_length, hle, Nat.min_eq_left hle]
      rw [if_pos hi.1, hcells]
      exact Rep.ofBlock hg4 (by rw [← hcells, hlen _ hle hsn])
        (by rw [← hcells, hlen _ hle hsn]) rfl rfl rfl
  · have hres : b.resize h n opt = .ok (h3, ⟨⟨some h.length, 0⟩, ⟨some h.length, n⟩,
        ⟨some h.length, n⟩⟩) := by
      rcases hre with ho | hc
      · subst ho
        have hn0 : n ≠ 0 := fun h0 => hnz ⟨h0, rfl⟩
        simp [Buffer.resize, hn0, hr.size, alloc, e1, e2, Ptr.add]
      · simp [Buffer.resize, hnz, hr.capacity, hr.size, hc, alloc, e1, e2, Ptr.add, hi]
    have hx : List.replicate (n - s) (if opt = .Initialize then some (0 : Byte) else none) =
        List.replicate (n - s) none := by
      by_cases ho : opt = .Initialize
      · have hsn2 : n - s = 0 := by
          have : ¬ s < n := fun hlt => hi ⟨ho, hlt⟩
          omega
        simp [hsn2]
      · simp [ho]
    refine ⟨h3, _, hres, ?_⟩
    rw [hx]
    exact Rep.ofBlock hg (by rw [hlen _ hle hsn]) (by rw [hlen _ hle hsn]) rfl rfl rfl

theorem Rep.resize_inplace {h : Heap} {b : Buffer} {cells : List Cell} {s : Nat}
    (hr : b.Rep h cells s) (n : Nat) (opt : Options)
    (hns : opt ≠ .Shrink) (hn : n ≤ cells.length) :
    ∃ h1 b1, b.resize h n opt = .ok (h1, b1) ∧
      b1.Rep h1 (if opt = .Initialize ∧ s < n then
        cells.take s ++ List.replicate (n - s) (some 0) ++ cells.drop n else cells) n := by
  have hcap : ¬ (opt = .Shrink ∨ b.capacity < n) := by
    rw [hr.capacity]; simp [hns]; omega
  have hnz : ¬(n = 0 ∧ opt = .Shrink) := fun hc => hns hc.2
  rcases hr with ⟨hb, hc, hs⟩ | ⟨k, hb, hs, hk⟩
  · subst hb hc hs
    have hn0 : n = 0 := by simpa using hn
    subst hn0
    refine ⟨h, Buffer.empty, ?_, ?_⟩
    · simp [Buffer.resize, hns, hcap, Buffer.size, Ptr.diff, Buffer.empty, nullptr, Ptr.add]
    · simp; exact Or.inl ⟨rfl, rfl, rfl⟩
  · subst hb
    by_cases hi : opt = .Initialize ∧ s < n
    · obtain ⟨h4, hst, _, hg4, _⟩ := store_spec hk s (List.replicate (n - s) (some (0 : Byte)))
        (by simp; omega)
      refine ⟨h4, ⟨⟨some k, 0⟩, ⟨some k, n⟩, ⟨some k, cells.length⟩⟩, ?_, ?_⟩
      · have hc : ¬ cells.length < n := by omega
        simp [Buffer.resize, hns, hc, Buffer.size, Buffer.capacity, Ptr.diff, Ptr.add, hi,
          memset, hst]
      · rw [if_pos hi]
        have hlen2 : (List.replicate (n - s) (some (0 : Byte))).length = n - s := by simp
        have hsum : s + (n - s) = n := by omega
        rw [hlen2, hsum] at hg4
        exact Rep.ofBlock hg4 (by simp; omega) (by simp; omega) rfl rfl rfl
    · refine ⟨h, ⟨⟨some k, 0⟩, ⟨some k, n⟩, ⟨some k, cells.length⟩⟩, ?_, ?_⟩
      · have hc : ¬ cells.length < n := by omega
        simp [Buffer.resize, hns, hc, Buffer.size, Buffer.capacity, Ptr.diff, Ptr.add, hi]
      · rw [if_neg hi]
        exact Rep.ofBlock hk hn rfl rfl rfl rfl

/-- With `Shrink` and a new size below the old one, `resize` copies `oldSize`
bytes into storage that holds only `newSize`. -/
theorem Rep.resize_shrink_overflow {h : Heap} {b : Buffer} {cells : List Cell} {s : Nat}
    (hr : b.Rep h cells s) (n : Nat) (hn : 0 < n) (hns : n < s) :
    b.resize h n .Shrink = .error .outOfBounds := by
  rcases hr with ⟨hb, hc, hs⟩ | ⟨k, hb, hs, hk⟩
  · omega
  · subst hb
    have hlt := lt_of_getElem? hk
    have hne : h.length ≠ k := by omega
    have hld := load_ok (getElem?_alloc_old hk n) 0 s (by omega)
    have hs0 : s ≠ 0 := by omega
    have hn0 : n ≠ 0 := by omega
    have hmin : min s cells.length = s := Nat.min_eq_left hs
    have hbad : ¬ (s ≤ n) := by omega
    simp [Buffer.resize, hn0, alloc, memcpy, Buffer.size, Ptr.diff, hld, rangesOverlap, hne,
      store, hs0, hmin, hbad]

end Buffer

/-- The part of C3 the code does implement: `resize(n, Shrink)` with `n > 0`
and `n` not below the old size gives size `n`, capacity exactly `n` and keeps
the old live bytes as a prefix. -/
theorem resize_shrink_of_size_le (h : Heap) (b : Buffer) (n : Nat) (L : List Cell)
    (hwf : b.WF h) (hL : b.toString h = .ok L) (hn : 0 < n) (hsz : b.size ≤ n) :
    ∃ h1 b1 L1, b.resize h n .Shrink = .ok (h1, b1) ∧ b1.size = n ∧ b1.capacity = n ∧
      b1.toString h1 = .ok L1 ∧ L1.take L.length = L := by
  obtain ⟨cells, s, hr⟩ := hwf.rep
  have hle := hr.le
  rw [hr.size] at hsz
  rw [hr.toString] at hL
  cases hL
  obtain ⟨h1, b1, he, hr1⟩ := hr.resize_realloc n .Shrink (Or.inl rfl) (by omega) hsz
  refine ⟨h1, b1, _, he, hr1.size, ?_, hr1.toString, ?_⟩
  · rw [hr1.capacity, Buffer.length_take_append_replicate cells s n _ hle hsz]
  · have hlen : (cells.take s).length = s := by simp [hle]
    rw [hlen]
    exact Buffer.take_take_append_replicate cells s n _ hle hsz

/-- C3, failing input: on the buffer `"abc"` (size 3, capacity 3) the call
`resize(1, Shrink)` copies the three old bytes into the one-byte array it
has just allocated and so writes past its end, instead of producing a buffer of
size 1 and capacity 1 holding `"a"`. -/
theorem resize_shrink_below_size_overflows :
    Buffer.resize [⟨true, [some 97, some 98, some 99]⟩]
      ⟨⟨some 0, 0⟩, ⟨some 0, 3⟩, ⟨some 0, 3⟩⟩ 1 .Shrink = .error .outOfBounds := by
  rfl

/-- C8: `resize(n)` with the default policy gives size `n`, capacity
`max(c, n)` and keeps the first `min(|L|, n)` live bytes. -/
theorem resize_default_keeps_leading_bytes (h : Heap) (b : Buffer) (n : Nat) (L : List Cell)
    (hwf : b.WF h) (hL : b.toString h = .ok L) :
    ∃ h1 b1 L1, b.resize h n Options.Default = .ok (h1, b1) ∧ b1.size = n ∧
      b1.capacity = max b.capacity n ∧ b1.toString h1 = .ok L1 ∧
      L1.take (min L.length n) = L.take (min L.length n) := by
  obtain ⟨cells, s, hr⟩ := hwf.rep
  have hle := hr.le
  rw [hr.toString] at hL
  cases hL
  rw [hr.capacity]
  by_cases hc : cells.length < n
  · obtain ⟨h1, b1, he, hr1⟩ := hr.resize_realloc n Options.Uninitialize (Or.inr hc)
      (by simp) (by omega)
    refine ⟨h1, b1, _, he, hr1.size, ?_, hr1.toString, ?_⟩
    · rw [hr1.capacity, Buffer.length_take_append_replicate cells s n _ hle (by omega)]
      omega
    · have hlen : (cells.take s).length = s := by simp [hle]
      rw [hlen, Nat.min_eq_left (by omega : s ≤ n)]
      rw [Buffer.take_take_append_replicate cells s n _ hle (by omega), List.take_take,
        Nat.min_self]
  · obtain ⟨h1, b1, he, hr1⟩ := hr.resize_inplace n Options.Uninitialize (by simp) (by omega)
    refine ⟨h1, b1, _, he, hr1.size, ?_, hr1.toString, ?_⟩
    · rw [hr1.capacity]; simp; omega
    · simp [List.take_take]

theorem resize_default_keeps_leading_bytes_witness :
    ∃ h1 b1 L1, Buffer.resize [⟨true, [some 97, some 98, some 99]⟩]
        ⟨⟨some 0, 0⟩, ⟨some 0, 3⟩, ⟨some 0, 3⟩⟩ 200 Options.Default = .ok (h1, b1) ∧
      b1.size = 200 ∧
      b1.capacity = max (Buffer.capacity ⟨⟨some 0, 0⟩, ⟨some 0, 3⟩, ⟨some 0, 3⟩⟩) 200 ∧
      b1.toString h1 = .ok L1 ∧
      L1.take (min [some (97 : Byte), some 98, some 99].length 200) =
        [some (97 : Byte), some 98, some 99].take
          (min [some (97 : Byte), some 98, some 99].length 200) :=
  resize_default_keeps_leading_bytes _ _ 200 _ (by decide) rfl

/-- C9: `resize(0, Shrink)` returns any buffer to the empty state: size 0,
capacity 0, no storage, empty byte view. -/
theorem resize_zero_shrink_empties (h : Heap) (b : Buffer) (hwf : b.WF h) :
    ∃ h1 b1, b.resize h 0 .Shrink = .ok (h1, b1) ∧ b1.size = 0 ∧ b1.capacity = 0 ∧
      b1._begin = nullptr ∧ b1 = Buffer.empty ∧ b1.toString h1 = .ok [] := by
  obtain ⟨cells, s, hr⟩ := hwf.rep
  obtain ⟨h1, he, _⟩ := hr.resize_shrink_zero
  exact ⟨h1, Buffer.empty, he, rfl, rfl, rfl, rfl, rfl⟩

theorem resize_zero_shrink_empties_witness :
    ∃ h1 b1, Buffer.resize [⟨true, [some 97, some 98, some 99]⟩]
        ⟨⟨some 0, 0⟩, ⟨some 0, 2⟩, ⟨some 0, 3⟩⟩ 0 .Shrink = .ok (h1, b1) ∧
      b1.size = 0 ∧ b1.capacity = 0 ∧ b1._begin = nullptr ∧ b1 = Buffer.empty ∧
      b1.toString h1 = .ok [] :=
  resize_zero_shrink_empties _ _ (by decide)

/-- C10: `resize(n, Initialize)` with `n` above the old size gives size `n`,
keeps the old live bytes `L` as the first `|L|` bytes and makes every byte at
an index from `|L|` up to `n` zero, with or without reallocation. -/
theorem resize_initialize_zero_fills (h : Heap) (b : Buffer) (n : Nat) (L : List Cell)
    (hwf : b.WF h) (hL : b.toString h = .ok L) (hn : L.length < n) :
    ∃ h1 b1 L1, b.resize h n .Initialize = .ok (h1, b1) ∧ b1.size = n ∧
      b1.toString h1 = .ok L1 ∧ L1.length = n ∧ L1.take L.length = L ∧
      ∀ i, L.length ≤ i → i < n → L1[i]? = some (some 0) := by
  obtain ⟨cells, s, hr⟩ := hwf.rep
  have hle := hr.le
  rw [hr.toString] at hL
  cases hL
  have hlen : (cells.take s).length = s := by simp [hle]
  rw [hlen] at hn ⊢
  have key : ∃ h1 b1, b.resize h n .Initialize = .ok (h1, b1) ∧ b1.size = n ∧
      b1.toString h1 = .ok (cells.take s ++ List.replicate (n - s) (some 0)) := by
    by_cases hc : cells.length < n
    · obtain ⟨h1, b1, he, hr1⟩ := hr.resize_realloc n .Initialize (Or.inr hc)
        (by simp) (by omega)
      refine ⟨h1, b1, he, hr1.size, ?_⟩
      rw [hr1.toString]
      simp only [↓reduceIte]
      rw [List.take_of_length_le]
      rw [Buffer.length_take_append_replicate cells s n _ hle (by omega)]
    · obtain ⟨h1, b1, he, hr1⟩ := hr.resize_inplace n .Initialize (by simp) (by omega)
      refine ⟨h1, b1, he, hr1.size, ?_⟩
      rw [hr1.toString, if_pos ⟨rfl, hn⟩]
      rw [List.take_append_of_le_length
        (by rw [Buffer.length_take_append_replicate cells s n _ hle (by omega)])]
      rw [List.take_of_length_le]
      rw [Buffer.length_take_append_replicate cells s n _ hle (by omega)]
  obtain ⟨h1, b1, he, hsz, hts⟩ := key
  refine ⟨h1, b1, _, he, hsz, hts, ?_, ?_, ?_⟩
  · exact Buffer.length_take_append_replicate cells s n _ hle (by omega)
  · rw [List.take_append_of_le_length (by omega), List.take_of_length_le (by omega)]
  · intro i hi hin
    rw [List.getElem?_append_right (by omega), hlen]
    rw [List.getElem?_replicate]
    simp; omega

theorem resize_initialize_zero_fills_witness :
    ∃ h1 b1 L1, Buffer.resize [⟨true, [some 97, some 98, some 99]⟩]
        ⟨⟨some 0, 0⟩, ⟨some 0, 1⟩, ⟨some 0, 3⟩⟩ 2 .Initialize = .ok (h1, b1) ∧ b1.size = 2 ∧
      b1.toString h1 = .ok L1 ∧ L1.length = 2 ∧
      L1.take [some (97 : Byte)].length = [some (97 : Byte)] ∧
      ∀ i, [some (97 : Byte)].length ≤ i → i < 2 → L1[i]? = some (some 0) :=
  resize_initialize_zero_fills _ _ 2 _ (by decide) rfl (by decide)

/-! ## `assign` -/

namespace Buffer

theorem Rep.assign {h : Heap} {b : Buffer} {cells : List Cell} {s : Nat}
    (hr : b.Rep h cells s) (x : List Byte) :
    ∃ h1 b1, b.assign h x = .ok (h1, b1) ∧
      b1.Rep h1 (if cells.length < x.length ∨ b = Buffer.empty then x.map some
        else x.map some ++ cells.drop x.length) x.length := by
  by_cases hre : cells.length < x.length ∨ b = Buffer.empty
  · obtain ⟨h1, e1, hl⟩ := hr.release_ok
    obtain ⟨h2, hst, _, hg, _⟩ := store_spec (getElem?_alloc_new h1 x.length) 0 (x.map some)
      (by simp)
    have hcond : x.length > b.capacity ∨ b._begin.isNonNull = false := by
      rcases hre with hc | he
      · left; rw [hr.capacity]; exact hc
      · right; subst he; rfl
    refine ⟨h2, ⟨⟨some h1.length, 0⟩, ⟨some h1.length, x.length⟩,
      ⟨some h1.length, x.length⟩⟩, ?_, ?_⟩
    · unfold Buffer.assign
      simp only [if_pos hcond, e1, alloc, memcpyFrom, Ptr.add, Nat.zero_add, hst]
    · rw [if_pos hre]
      simp at hg
      exact Rep.ofBlock hg (by simp) (by simp) rfl rfl rfl
  · rcases hr with ⟨hb, _, _⟩ | ⟨k, hb, hs, hk⟩
    · exact absurd (Or.inr hb) hre
    · subst hb
      have hc : x.length ≤ cells.length := by
        have : ¬ cells.length < x.length := fun hlt => hre (Or.inl hlt)
        omega
      obtain ⟨h2, hst, _, hg, _⟩ := store_spec hk 0 (x.map some) (by simp; omega)
      have hcond : ¬ (x.length > Buffer.capacity ⟨⟨some k, 0⟩, ⟨some k, s⟩,
          ⟨some k, cells.length⟩⟩ ∨ Ptr.isNonNull ⟨some k, 0⟩ = false) := by
        simp [Buffer.capacity, Ptr.diff, Ptr.isNonNull, nullptr]; omega
      refine ⟨h2, ⟨⟨some k, 0⟩, ⟨some k, x.length⟩, ⟨some k, cells.length⟩⟩, ?_, ?_⟩
      · unfold Buffer.assign
        simp only [if_neg hcond, memcpyFrom, Ptr.add, Nat.zero_add, hst]
      · rw [if_neg hre]
        simp at hg
        exact Rep.ofBlock hg (by simp) (by simp; omega) rfl rfl rfl

end Buffer

/-- C5: after `assign(x)` the size is `|x|` and the live bytes are exactly the
bytes of `x`, whatever the buffer held before. -/
theorem assign_size_and_content (h : Heap) (b : Buffer) (x : List Byte) (hwf : b.WF h) :
    ∃ h1 b1, b.assign h x = .ok (h1, b1) ∧
      b1.size = x.length ∧ b1.toString h1 = .ok (x.map some) := by
  obtain ⟨cells, s, hr⟩ := hwf.rep
  obtain ⟨h1, b1, he, hr1⟩ := hr.assign x
  refine ⟨h1, b1, he, hr1.size, ?_⟩
  rw [hr1.toString]
  split <;> simp [List.take_append_of_le_length]

theorem assign_size_and_content_witness :
    ∃ h1 b1, Buffer.assign [⟨true, [some 97, some 98, some 99]⟩]
        ⟨⟨some 0, 0⟩, ⟨some 0, 1⟩, ⟨some 0, 3⟩⟩ [120, 121] = .ok (h1, b1) ∧
      b1.size = [(120 : Byte), 121].length ∧
      b1.toString h1 = .ok ([(120 : Byte), 121].map some) :=
  assign_size_and_content _ _ _ (by decide)

/-- C6: `assign(x)` keeps the capacity `c` when `|x| <= c` (also for a buffer
without storage, where `c = 0`) and makes it exactly `|x|` when `|x| > c`. -/
theorem assign_capacity (h : Heap) (b : Buffer) (x : List Byte) (hwf : b.WF h) :
    ∃ h1 b1, b.assign h x = .ok (h1, b1) ∧
      (x.length ≤ b.capacity → b1.capacity = b.capacity) ∧
      (b.capacity < x.length → b1.capacity = x.length) := by
  obtain ⟨cells, s, hr⟩ := hwf.rep
  obtain ⟨h1, b1, he, hr1⟩ := hr.assign x
  refine ⟨h1, b1, he, ?_, ?_⟩
  · intro hle
    rw [hr1.capacity, hr.capacity]
    rw [hr.capacity] at hle
    split
    · rename_i hc
      rcases hc with hc | hc
      · omega
      · rcases hr with ⟨_, hcells, _⟩ | ⟨k, hb, _, _⟩
        · subst hcells; simpa using hle
        · rw [hb] at hc; simp [Buffer.empty, nullptr] at hc
    · simp; omega
  · intro hlt
    rw [hr1.capacity]
    rw [hr.capacity] at hlt
    rw [if_pos (Or.inl hlt)]
    simp

theorem assign_capacity_witness :
    ∃ h1 b1, Buffer.assign [⟨true, [some 97, some 98, some 99]⟩]
        ⟨⟨some 0, 0⟩, ⟨some 0, 3⟩, ⟨some 0, 3⟩⟩ [97] = .ok (h1, b1) ∧
      ([(97 : Byte)].length ≤ Buffer.capacity ⟨⟨some 0, 0⟩, ⟨some 0, 3⟩, ⟨some 0, 3⟩⟩ →
        b1.capacity = Buffer.capacity ⟨⟨some 0, 0⟩, ⟨some 0, 3⟩, ⟨some 0, 3⟩⟩) ∧
      (Buffer.capacity ⟨⟨some 0, 0⟩, ⟨some 0, 3⟩, ⟨some 0, 3⟩⟩ < [(97 : Byte)].length →
        b1.capacity = [(97 : Byte)].length) :=
  assign_capacity _ _ [97] (by decide)

/-! ## `insert` -/

theorem memcpy_spec {h : Heap} {ks kd : Nat} {cs cd : List Cell}
    (hs : h[ks]? = some ⟨true, cs⟩) (hd : h[kd]? = some ⟨true, cd⟩) (hne : kd ≠ ks)
    (os od n : Nat) (hbs : os + n ≤ cs.length) (hbd : od + n ≤ cd.length) :
    ∃ h1, memcpy h ⟨some kd, od⟩ ⟨some ks, os⟩ n = .ok h1 ∧ h1.length = h.length ∧
      h1[kd]? = some ⟨true, cd.take od ++ (cs.drop os).take n ++ cd.drop (od + n)⟩ ∧
      ∀ j, j ≠ kd → h1[j]? = h[j]? := by
  have hlen : ((cs.drop os).take n).length = n := by simp; omega
  obtain ⟨h1, hst, hl, hg, hfr⟩ := store_spec hd od ((cs.drop os).take n)
    (by rw [hlen]; exact hbd)
  rw [hlen] at hg
  refine ⟨h1, ?_, hl, hg, hfr⟩
  simp [memcpy, load_ok hs os n hbs, rangesOverlap, hne, hst]

theorem memmove_spec {h : Heap} {k : Nat} {cells : List Cell}
    (hk : h[k]? = some ⟨true, cells⟩)
    (os od n : Nat) (hbs : os + n ≤ cells.length) (hbd : od + n ≤ cells.length) :
    ∃ h1, memmove h ⟨some k, od⟩ ⟨some k, os⟩ n = .ok h1 ∧ h1.length = h.length ∧
      h1[k]? = some ⟨true, cells.take od ++ (cells.drop os).take n ++ cells.drop (od + n)⟩ ∧
      ∀ j, j ≠ k → h1[j]? = h[j]? := by
  have hlen : ((cells.drop os).take n).length = n := by simp; omega
  obtain ⟨h1, hst, hl, hg, hfr⟩ := store_spec hk od ((cells.drop os).take n)
    (by rw [hlen]; exact hbd)
  rw [hlen] at hg
  refine ⟨h1, ?_, hl, hg, hfr⟩
  simp [memmove, load_ok hk os n hbs, hst]

namespace Buffer

/-- The list identity behind the in-place path of `insert`: shifting the
suffix right by `m` cells and then writing `x` into the gap. -/
theorem splice_inplace (cells x : List Cell) (p s : Nat) (hp : p ≤ s)
    (hfit : s + x.length ≤ cells.length) :
    List.take p (cells.take (p + x.length) ++ (cells.drop p).take (s - p) ++
        cells.drop (p + x.length + (s - p))) ++ x ++
      List.drop (p + x.length) (cells.take (p + x.length) ++ (cells.drop p).take (s - p) ++
        cells.drop (p + x.length + (s - p))) =
    cells.take p ++ x ++ (cells.drop p).take (s - p) ++ cells.drop (s + x.length) := by
  have h1 : (cells.take (p + x.length)).length = p + x.length := by simp; omega
  have h2 : p + x.length + (s - p) = s + x.length := by omega
  rw [List.append_assoc (cells.take (p + x.length))]
  rw [List.take_append_of_le_length (by omega), List.drop_append_of_le_length (by omega)]
  rw [List.take_take, Nat.min_eq_left (by omega), List.drop_of_length_le (by omega), h2]
  simp

theorem Rep.insert_inplace {h : Heap} {b : Buffer} {cells : List Cell} {s : Nat}
    (hr : b.Rep h cells s) (p : Nat) (x : List Byte) (hp : p ≤ s)
    (hfit : s + x.length ≤ cells.length) :
    ∃ h1 b1, b.insert h (b.begin.add p) x = .ok (h1, b1) ∧
      b1.Rep h1 (cells.take p ++ x.map some ++ (cells.drop p).take (s - p) ++
        cells.drop (s + x.length)) (s + x.length) := by
  rcases hr with ⟨hb, hc, hs⟩ | ⟨k, hb, hs, hk⟩
  · subst hb hc hs
    have hp0 : p = 0 := by omega
    have hx : x = [] := by
      have : x.length = 0 := by simpa using hfit
      exact List.length_eq_zero.mp this
    subst hp0 hx
    exact ⟨h, Buffer.empty, rfl, Or.inl ⟨rfl, rfl, rfl⟩⟩
  · subst hb
    obtain ⟨h1, e1, _, hg1, _⟩ := memmove_spec hk p (p + x.length) (s - p) (by omega) (by omega)
    obtain ⟨h2, e2, _, hg2, _⟩ := store_spec hg1 p (x.map some) (by simp; omega)
    have hcap : ¬ (cells.length < s + x.length) := by omega
    refine ⟨h2, ⟨⟨some k, 0⟩, ⟨some k, s + x.length⟩, ⟨some k, cells.length⟩⟩, ?_, ?_⟩
    · simp [Buffer.insert, Buffer.begin, Buffer.size, Buffer.capacity, Ptr.diff, Ptr.add, hcap,
        e1, memcpyFrom, e2]
    · have hsp := splice_inplace cells (x.map some) p s hp (by simpa using hfit)
      simp only [List.length_map] at hsp hg2
      rw [hsp] at hg2
      exact Rep.ofBlock hg2 (by simp; omega) (by simp; omega) rfl rfl rfl

/-- On the reallocating path of `insert` the final
`memcpy(position, other.data(), otherSize)` still uses the caller's
`position`, which points into the storage released a few lines earlier (or is
null when the buffer had no storage). -/
theorem Rep.insert_realloc_faults {h : Heap} {b : Buffer} {cells : List Cell} {s : Nat}
    (hr : b.Rep h cells s) (p : Nat) (x : List Byte) (hp : p ≤ s)
    (hgrow : cells.length < s + x.length) :
    b.insert h (b.begin.add p) x =
      .error (if b = Buffer.empty then .nullDeref else .useAfterFree) := by
  have hx : x.length ≠ 0 := by have := hr.le; omega
  rcases hr with ⟨hb, hc, hs⟩ | ⟨k, hb, hs, hk⟩
  · subst hb hc hs
    have hp0 : p = 0 := by omega
    subst hp0
    have hpos : 0 < x.length := by omega
    simp [Buffer.insert, Buffer.begin, Buffer.size, Buffer.capacity, Ptr.diff, Ptr.add,
      Buffer.empty, nullptr, hpos, alloc, memcpy, load, store, Buffer.release, Ptr.isNonNull,
      memcpyFrom, hx]
  · subst hb
    have hlt := lt_of_getElem? hk
    have hne : h.length ≠ k := by omega
    obtain ⟨h2, e2, _, hg2, hf2⟩ := memcpy_spec (getElem?_alloc_old hk (s + x.length))
      (getElem?_alloc_new h (s + x.length)) hne 0 0 p (by omega) (by simp; omega)
    have hk2 : h2[k]? = some ⟨true, cells⟩ := by
      rw [hf2 k (Ne.symm hne)]; exact getElem?_alloc_old hk _
    obtain ⟨h3, e3, _, _, hf3⟩ := memcpy_spec hk2 hg2 hne p (p + x.length) (s - p) (by omega)
      (by simp; omega)
    have hk3 : h3[k]? = some ⟨true, cells⟩ := by
      rw [hf3 k (Ne.symm hne)]; exact hk2
    have hk4 : (h3.set k ⟨false, cells⟩)[k]? = some ⟨false, cells⟩ :=
      List.getElem?_set_self (lt_of_getElem? hk3)
    have hnot : (⟨⟨some k, 0⟩, ⟨some k, s⟩, ⟨some k, cells.length⟩⟩ : Buffer) ≠ Buffer.empty := by
      simp [Buffer.empty, nullptr]
    rw [if_neg hnot]
    simp [Buffer.insert, Buffer.begin, Buffer.size, Buffer.capacity, Ptr.diff, Ptr.add, hgrow,
      alloc, e2, e3, Buffer.release, Ptr.isNonNull, nullptr, free_ok hk3, memcpyFrom, store,
      hx, hk4]

end Buffer

/-- The part of C1 the code does implement: when the capacity suffices,
`insert(begin()+p, x)` gives size `|L| + |x|` and live bytes
`L[0..p) ++ x ++ L[p..|L|)`. -/
theorem insert_in_place (h : Heap) (b : Buffer) (p : Nat) (x : List Byte) (L : List Cell)
    (hwf : b.WF h) (hL : b.toString h = .ok L) (hp : p ≤ L.length)
    (hfit : L.length + x.length ≤ b.capacity) :
    ∃ h1 b1, b.insert h (b.begin.add p) x = .ok (h1, b1) ∧
      b1.size = L.length + x.length ∧ b1.capacity = b.capacity ∧
      b1.toString h1 = .ok (L.take p ++ x.map some ++ L.drop p) := by
  obtain ⟨cells, s, hr⟩ := hwf.rep
  have hle := hr.le
  rw [hr.toString] at hL
  cases hL
  have hlen : (cells.take s).length = s := by simp [hle]
  rw [hlen] at hp hfit ⊢
  rw [hr.capacity] at hfit ⊢
  obtain ⟨h1, b1, he, hr1⟩ := hr.insert_inplace p x hp hfit
  refine ⟨h1, b1, he, hr1.size, ?_, ?_⟩
  · rw [hr1.capacity]; simp; omega
  · rw [hr1.toString]
    have h1 : (cells.take p ++ x.map some ++ (cells.drop p).take (s - p)).length =
        s + x.length := by simp; omega
    rw [List.take_append_of_le_length (by omega), List.take_of_length_le (by omega)]
    rw [List.take_take, Nat.min_eq_left hp, List.drop_take]

/-- C1, failing input: the buffer `"ab"` is full (size 2, capacity 2), so
`insert(begin()+1, "Z")` reallocates; the inserted byte is then written through
the stale `position` into the released storage and never reaches the gap of
the new storage, so the result is not the live sequence `"aZb"`. -/
theorem insert_realloc_writes_released_storage :
    Buffer.insert [⟨true, [some 97, some 98]⟩] ⟨⟨some 0, 0⟩, ⟨some 0, 2⟩, ⟨some 0, 2⟩⟩
      ((Buffer.begin ⟨⟨some 0, 0⟩, ⟨some 0, 2⟩, ⟨some 0, 2⟩⟩).add 1) [90] =
      .error .useAfterFree := by
  rfl

/-! ## Move assignment, move construction and construction from bytes -/

/-- C2, counterexample: the destination holds `"x"` and the source holds
`"ab"`; after `d = std::move(s)` the source is not empty, it owns the
destination's former storage (size 1, capacity 1). -/
theorem moveAssign_source_keeps_destination_storage :
    Buffer.WF [⟨true, [some 120]⟩, ⟨true, [some 97, some 98]⟩]
        ⟨⟨some 0, 0⟩, ⟨some 0, 1⟩, ⟨some 0, 1⟩⟩ ∧
      Buffer.WF [⟨true, [some 120]⟩, ⟨true, [some 97, some 98]⟩]
        ⟨⟨some 1, 0⟩, ⟨some 1, 2⟩, ⟨some 1, 2⟩⟩ ∧
      ¬ ((Buffer.moveAssign ⟨⟨some 0, 0⟩, ⟨some 0, 1⟩, ⟨some 0, 1⟩⟩
            ⟨⟨some 1, 0⟩, ⟨some 1, 2⟩, ⟨some 1, 2⟩⟩).2.size = 0 ∧
          (Buffer.moveAssign ⟨⟨some 0, 0⟩, ⟨some 0, 1⟩, ⟨some 0, 1⟩⟩
            ⟨⟨some 1, 0⟩, ⟨some 1, 2⟩, ⟨some 1, 2⟩⟩).2.capacity = 0) := by
  decide

/-- C2, amended: after `d = std::move(s)` the destination has the source's
former members, hence its size, capacity and live bytes, and the source has the
destination's former members, hence its size, capacity and live bytes; no byte
of the heap is touched.  The source is therefore empty when the destination was
empty, which is the case of move construction. -/
theorem moveAssign_exchanges_storage (h : Heap) (d s : Buffer) :
    (Buffer.moveAssign d s).1 = s ∧ (Buffer.moveAssign d s).2 = d ∧
      (Buffer.moveAssign d s).1.size = s.size ∧
      (Buffer.moveAssign d s).1.capacity = s.capacity ∧
      (Buffer.moveAssign d s).1.toString h = s.toString h ∧
      (Buffer.moveAssign d s).2.size = d.size ∧
      (Buffer.moveAssign d s).2.capacity = d.capacity ∧
      (Buffer.moveAssign d s).2.toString h = d.toString h ∧
      (Buffer.moveAssign Buffer.empty s).2 = Buffer.empty ∧
      (Buffer.moveConstruct s).1 = s ∧ (Buffer.moveConstruct s).2 = Buffer.empty :=
  ⟨rfl, rfl, rfl, rfl, rfl, rfl, rfl, rfl, rfl, rfl, rfl⟩

/-- When the storage of the new object happens to hold three null pointers,
the constructor from bytes behaves as C4 says: the byte view reads back `x` and
size and capacity are both `|x|`. -/
theorem ofStringView_of_null_members (h : Heap) (x : List Byte) :
    ∃ h1 b1, Buffer.ofStringView h Buffer.empty x = .ok (h1, b1) ∧
      b1.toString h1 = .ok (x.map some) ∧ b1.size = x.length ∧ b1.capacity = x.length := by
  have hr : Buffer.empty.Rep h [] 0 := Or.inl ⟨rfl, rfl, rfl⟩
  obtain ⟨h1, b1, he, hr1⟩ := hr.assign x
  rw [if_pos (Or.inr rfl)] at hr1
  refine ⟨h1, b1, he, ?_, hr1.size, ?_⟩
  · rw [hr1.toString]; simp
  · rw [hr1.capacity]; simp

/-- C4, failing input: `Buffer b("abc")` built where a destroyed buffer of
capacity 3 used to live.  The constructor leaves the members uninitialised, so
`assign` sees the stale pointers, finds the capacity sufficient and copies
`"abc"` into the released array.  In the second scenario the stale pointers
describe 5 bytes of storage and the source is empty: the call returns, with
capacity 5 instead of 0. -/
theorem ofStringView_reads_uninitialised_members :
    Buffer.ofStringView [⟨false, [some 97, some 98, some 99]⟩]
        ⟨⟨some 0, 0⟩, ⟨some 0, 3⟩, ⟨some 0, 3⟩⟩ [97, 98, 99] = .error .useAfterFree ∧
      (Buffer.ofStringView [⟨true, [none, none, none, none, none]⟩]
        ⟨⟨some 0, 0⟩, ⟨some 0, 5⟩, ⟨some 0, 5⟩⟩ []).map (fun r => r.2.capacity) = .ok 5 :=
  ⟨rfl, rfl⟩

/-! ## `erase` -/

namespace Buffer

/-- Erasing one position is erasing the range of length one that starts there. -/
theorem erase_eq_eraseRange (h : Heap) (b : Buffer) (p : Nat) :
    b.erase h (b.begin.add p) = b.eraseRange h (b.begin.add p) (b.begin.add (p + 1)) := by
  have h1 : b._begin.off + (p + 1) - (b._begin.off + p) = 1 := by omega
  simp [Buffer.erase, Buffer.eraseRange, Buffer.begin, Ptr.diff, Ptr.add, h1]

theorem Rep.eraseRange {h : Heap} {b : Buffer} {cells : List Cell} {s : Nat}
    (hr : b.Rep h cells s) (f l : Nat) (hf : f ≤ l) (hl : l ≤ s) :
    ∃ h1 b1, b.eraseRange h (b.begin.add f) (b.begin.add l) = .ok (h1, b1, b1.begin.add f) ∧
      b1.Rep h1 (cells.take f ++ (cells.drop l).take (s - l) ++ cells.drop (f + (s - l)))
        (s - (l - f)) := by
  rcases hr with ⟨hb, hc, hs⟩ | ⟨k, hb, hs, hk⟩
  · subst hb hc hs
    have hl0 : l = 0 := by omega
    have hf0 : f = 0 := by omega
    subst hl0 hf0
    exact ⟨h, Buffer.empty, rfl, Or.inl ⟨rfl, rfl, rfl⟩⟩
  · subst hb
    obtain ⟨h1, e1, _, hg1, _⟩ := memmove_spec hk l f (s - l) (by omega) (by omega)
    have a1 : f + (l - f) = l := by omega
    have a2 : s - (l - f) - f = s - l := by omega
    refine ⟨h1, ⟨⟨some k, 0⟩, ⟨some k, s - (l - f)⟩, ⟨some k, cells.length⟩⟩, ?_, ?_⟩
    · simp [Buffer.eraseRange, Buffer.begin, Ptr.diff, Ptr.add, Ptr.sub, a1, a2, e1]
    · exact Rep.ofBlock hg1 (by simp; omega) (by simp; omega) rfl rfl rfl

/-- What `erase(first, last)` does to the byte view of a valid buffer. -/
theorem eraseRange_view (h : Heap) (b : Buffer) (f l : Nat) (L : List Cell)
    (hwf : b.WF h) (hL : b.toString h = .ok L) (hf : f ≤ l) (hl : l ≤ L.length) :
    ∃ h1 b1, b.eraseRange h (b.begin.add f) (b.begin.add l) = .ok (h1, b1, b1.begin.add f) ∧
      b1.WF h1 ∧ b1.size = L.length - (l - f) ∧ b1.capacity = b.capacity ∧
      b1.toString h1 = .ok (L.take f ++ L.drop l) := by
  obtain ⟨cells, s, hr⟩ := hwf.rep
  have hle := hr.le
  rw [hr.toString] at hL
  cases hL
  have hlen : (cells.take s).length = s := by simp [hle]
  rw [hlen] at hl ⊢
  obtain ⟨h1, b1, he, hr1⟩ := hr.eraseRange f l hf hl
  refine ⟨h1, b1, he, hr1.wf, hr1.size, ?_, ?_⟩
  · rw [hr1.capacity, hr.capacity]; simp; omega
  · rw [hr1.toString]
    have h2 : (cells.take f ++ (cells.drop l).take (s - l)).length = s - (l - f) := by
      simp; omega
    rw [List.take_append_of_le_length (by omega), List.take_of_length_le (by omega)]
    rw [List.take_take, Nat.min_eq_left (by omega), List.drop_take]

/-- What the in-place path of `insert` does to the byte view of a valid
buffer; the result is again a valid buffer. -/
theorem insert_inplace_view (h : Heap) (b : Buffer) (p : Nat) (x : List Byte) (L : List Cell)
    (hwf : b.WF h) (hL : b.toString h = .ok L) (hp : p ≤ L.length)
    (hfit : L.length + x.length ≤ b.capacity) :
    ∃ h1 b1, b.insert h (b.begin.add p) x = .ok (h1, b1) ∧ b1.WF h1 ∧
      b1.toString h1 = .ok (L.take p ++ x.map some ++ L.drop p) := by
  obtain ⟨cells, s, hr⟩ := hwf.rep
  have hle := hr.le
  rw [hr.toString] at hL
  cases hL
  have hlen : (cells.take s).length = s := by simp [hle]
  rw [hlen] at hp hfit
  rw [hr.capacity] at hfit
  obtain ⟨h1, b1, he, hr1⟩ := hr.insert_inplace p x hp hfit
  refine ⟨h1, b1, he, hr1.wf, ?_⟩
  rw [hr1.toString]
  have h1 : (cells.take p ++ x.map some ++ (cells.drop p).take (s - p)).length =
      s + x.length := by simp; omega
  rw [List.take_append_of_le_length (by omega), List.take_of_length_le (by omega)]
  rw [List.take_take, Nat.min_eq_left hp, List.drop_take]

end Buffer

/-- C11: `erase(begin()+f, begin()+l)` with `f <= l <= |L|` leaves the live
bytes `L[0..f) ++ L[l..|L|)`, the size `|L| - (l - f)`, the capacity unchanged,
and returns the position at offset `f`. -/
theorem eraseRange_removes_range (h : Heap) (b : Buffer) (f l : Nat) (L : List Cell)
    (hwf : b.WF h) (hL : b.toString h = .ok L) (hf : f ≤ l) (hl : l ≤ L.length) :
    ∃ h1 b1 pos, b.eraseRange h (b.begin.add f) (b.begin.add l) = .ok (h1, b1, pos) ∧
      b1.toString h1 = .ok (L.take f ++ L.drop l) ∧ b1.size = L.length - (l - f) ∧
      b1.capacity = b.capacity ∧ pos = b1.begin.add f := by
  obtain ⟨h1, b1, he, _, hsz, hcap, hts⟩ := Buffer.eraseRange_view h b f l L hwf hL hf hl
  exact ⟨h1, b1, _, he, hts, hsz, hcap, rfl⟩

theorem eraseRange_removes_range_witness :
    ∃ h1 b1 pos, Buffer.eraseRange [⟨true, [some 97, some 98, some 99, some 100]⟩]
        ⟨⟨some 0, 0⟩, ⟨some 0, 4⟩, ⟨some 0, 4⟩⟩
        ((Buffer.begin ⟨⟨some 0, 0⟩, ⟨some 0, 4⟩, ⟨some 0, 4⟩⟩).add 1)
        ((Buffer.begin ⟨⟨some 0, 0⟩, ⟨some 0, 4⟩, ⟨some 0, 4⟩⟩).add 3) = .ok (h1, b1, pos) ∧
      b1.toString h1 = .ok ([some (97 : Byte), some 98, some 99, some 100].take 1 ++
        [some (97 : Byte), some 98, some 99, some 100].drop 3) ∧
      b1.size = [some (97 : Byte), some 98, some 99, some 100].length - (3 - 1) ∧
      b1.capacity = Buffer.capacity ⟨⟨some 0, 0⟩, ⟨some 0, 4⟩, ⟨some 0, 4⟩⟩ ∧
      pos = b1.begin.add 1 :=
  eraseRange_removes_range _ _ 1 3 _ (by decide) rfl (by decide) (by decide)

/-- C12: `erase(begin()+p)` with `p < |L|` removes exactly the byte at index
`p`: the live bytes become `L[0..p) ++ L[p+1..|L|)`, the size `|L| - 1`, the
capacity is unchanged; the call is the same as `erase(begin()+p, begin()+p+1)`. -/
theorem erase_removes_one_byte (h : Heap) (b : Buffer) (p : Nat) (L : List Cell)
    (hwf : b.WF h) (hL : b.toString h = .ok L) (hp : p < L.length) :
    ∃ h1 b1 pos, b.erase h (b.begin.add p) = .ok (h1, b1, pos) ∧
      b1.toString h1 = .ok (L.take p ++ L.drop (p + 1)) ∧ b1.size = L.length - 1 ∧
      b1.capacity = b.capacity ∧
      b.erase h (b.begin.add p) = b.eraseRange h (b.begin.add p) (b.begin.add (p + 1)) := by
  obtain ⟨h1, b1, he, _, hsz, hcap, hts⟩ :=
    Buffer.eraseRange_view h b p (p + 1) L hwf hL (by omega) (by omega)
  rw [← Buffer.erase_eq_eraseRange] at he
  refine ⟨h1, b1, _, he, hts, ?_, hcap, Buffer.erase_eq_eraseRange h b p⟩
  rw [hsz]; omega

theorem erase_removes_one_byte_witness :
    ∃ h1 b1 pos, Buffer.erase [⟨true, [some 97, some 98, some 99]⟩]
        ⟨⟨some 0, 0⟩, ⟨some 0, 3⟩, ⟨some 0, 3⟩⟩
        ((Buffer.begin ⟨⟨some 0, 0⟩, ⟨some 0, 3⟩, ⟨some 0, 3⟩⟩).add 1) = .ok (h1, b1, pos) ∧
      b1.toString h1 = .ok ([some (97 : Byte), some 98, some 99].take 1 ++
        [some (97 : Byte), some 98, some 99].drop (1 + 1)) ∧
      b1.size = [some (97 : Byte), some 98, some 99].length - 1 ∧
      b1.capacity = Buffer.capacity ⟨⟨some 0, 0⟩, ⟨some 0, 3⟩, ⟨some 0, 3⟩⟩ ∧
      Buffer.erase [⟨true, [some 97, some 98, some 99]⟩]
        ⟨⟨some 0, 0⟩, ⟨some 0, 3⟩, ⟨some 0, 3⟩⟩
        ((Buffer.begin ⟨⟨some 0, 0⟩, ⟨some 0, 3⟩, ⟨some 0, 3⟩⟩).add 1) =
      Buffer.eraseRange [⟨true, [some 97, some 98, some 99]⟩]
        ⟨⟨some 0, 0⟩, ⟨some 0, 3⟩, ⟨some 0, 3⟩⟩
        ((Buffer.begin ⟨⟨some 0, 0⟩, ⟨some 0, 3⟩, ⟨some 0, 3⟩⟩).add 1)
        ((Buffer.begin ⟨⟨some 0, 0⟩, ⟨some 0, 3⟩, ⟨some 0, 3⟩⟩).add (1 + 1)) :=
  erase_removes_one_byte _ _ 1 _ (by decide) rfl (by decide)

/-! ## Insert followed by erase -/

theorem take_drop_splice (L : List Cell) (p : Nat) (x : Cell) (hp : p ≤ L.length) :
    List.take p (L.take p ++ [x] ++ L.drop p) ++
      List.drop (p + 1) (L.take p ++ [x] ++ L.drop p) = L := by
  have h3 : (L.take p).length = p := by simp; omega
  have h4 : (L.take p ++ [x]).length = p + 1 := by simp; omega
  rw [List.drop_left' h4, List.append_assoc, List.take_left' h3, List.take_append_drop]

/-- The part of C13 the code does implement: when the buffer has spare
capacity for one more byte, inserting one byte at offset `p` and erasing at
offset `p` gives back the live bytes `L`. -/
theorem insertThenErase_with_spare_capacity (h : Heap) (b : Buffer) (p : Nat) (c : Byte)
    (L : List Cell) (hwf : b.WF h) (hL : b.toString h = .ok L) (hp : p ≤ L.length)
    (hfit : L.length + 1 ≤ b.capacity) :
    ∃ h2 b2 pos, b.insertThenErase h p [c] = .ok (h2, b2, pos) ∧ b2.toString h2 = .ok L := by
  obtain ⟨h1, b1, he1, hwf1, hts1⟩ :=
    Buffer.insert_inplace_view h b p [c] L hwf hL hp (by simpa using hfit)
  have hlen : (L.take p ++ [c].map some ++ L.drop p).length = L.length + 1 := by
    simp; omega
  obtain ⟨h2, b2, he2, _, _, _, hts2⟩ :=
    Buffer.eraseRange_view h1 b1 p (p + 1) _ hwf1 hts1 (by omega) (by omega)
  rw [← Buffer.erase_eq_eraseRange] at he2
  refine ⟨h2, b2, b2.begin.add p, ?_, ?_⟩
  · simp only [Buffer.insertThenErase, he1]
    exact he2
  · rw [hts2]
    exact congrArg Except.ok (take_drop_splice L p (some c) hp)

/-- C13, failing input: the buffer `"ab"` is full (size 2, capacity 2); the
insert of `"Z"` at offset 1 reallocates and writes the byte through the stale
position into the released storage, so the sequence insert, erase does not
complete with the live bytes `"ab"`. -/
theorem insertThenErase_full_buffer_faults :
    Buffer.insertThenErase [⟨true, [some 97, some 98]⟩]
      ⟨⟨some 0, 0⟩, ⟨some 0, 2⟩, ⟨some 0, 2⟩⟩ 1 [90] = .error .useAfterFree := by
  rfl

/-! ## `swap` and `clear` -/

/-- C14: `swap(a, b)` leaves `a` with the former members of `b`, hence its
size, capacity and live bytes, and `b` with those of `a`; no byte of the heap
is touched, and swapping twice restores both buffers. -/
theorem swap_exchanges_and_is_involutive (h : Heap) (a b : Buffer) :
    (swap a b).1 = b ∧ (swap a b).2 = a ∧
      (swap a b).1.size = b.size ∧ (swap a b).1.capacity = b.capacity ∧
      (swap a b).1.toString h = b.toString h ∧
      (swap a b).2.size = a.size ∧ (swap a b).2.capacity = a.capacity ∧
      (swap a b).2.toString h = a.toString h ∧
      swap (swap a b).1 (swap a b).2 = (a, b) :=
  ⟨rfl, rfl, rfl, rfl, rfl, rfl, rfl, rfl, rfl⟩

/-- C18: after `clear()` the size is 0, `empty()` is true and the capacity is
what it was. -/
theorem clear_resets_size_keeps_capacity (b : Buffer) :
    b.clear.size = 0 ∧ b.clear.isEmpty = true ∧ b.clear.capacity = b.capacity := by
  simp [Buffer.clear, Buffer.size, Buffer.isEmpty, Buffer.capacity, Ptr.diff]

/-! ## `operator==` and `operator!=` -/

theorem take_succ_drop {ca : List Cell} {oa n : Nat} {La : List Byte}
    (hb : oa + (n + 1) ≤ ca.length) (hv : (ca.drop oa).take (n + 1) = La.map some) :
    ∃ x La1, La = x :: La1 ∧ (ca.drop oa).take 1 = [some x] ∧
      (ca.drop (oa + 1)).take n = La1.map some := by
  have hlt : oa < ca.length := by omega
  rw [List.drop_eq_getElem_cons hlt, List.take_succ_cons] at hv
  cases La with
  | nil => simp at hv
  | cons x La1 =>
    simp only [List.map_cons, List.cons.injEq] at hv
    refine ⟨x, La1, rfl, ?_, hv.2⟩
    rw [List.drop_eq_getElem_cons hlt, List.take_succ_cons, hv.1]
    simp

theorem stdEqual_spec {h : Heap} {ka kb : Nat} {ca cb : List Cell}
    (hka : h[ka]? = some ⟨true, ca⟩) (hkb : h[kb]? = some ⟨true, cb⟩) :
    ∀ (n oa ob : Nat) (La Lb : List Byte), oa + n ≤ ca.length → ob + n ≤ cb.length →
      (ca.drop oa).take n = La.map some → (cb.drop ob).take n = Lb.map some →
      stdEqual h n ⟨some ka, oa⟩ ⟨some kb, ob⟩ = .ok (decide (La = Lb)) := by
  intro n
  induction n with
  | zero =>
    intro oa ob La Lb _ _ hva hvb
    have ha : La = [] := by simpa using hva.symm
    have hb : Lb = [] := by simpa using hvb.symm
    subst ha hb
    simp [stdEqual]
  | succ n ih =>
    intro oa ob La Lb hba hbb hva hvb
    obtain ⟨x, La1, hLa, hxa, hra⟩ := take_succ_drop hba hva
    obtain ⟨y, Lb1, hLb, hyb, hrb⟩ := take_succ_drop hbb hvb
    subst hLa hLb
    have hla := load_ok hka oa 1 (by omega)
    have hlb := load_ok hkb ob 1 (by omega)
    rw [hxa] at hla
    rw [hyb] at hlb
    have hrec := ih (oa + 1) (ob + 1) La1 Lb1 (by omega) (by omega) hra hrb
    simp only [stdEqual, hla, hlb, Ptr.add]
    by_cases hxy : x = y
    · subst hxy
      simp [hrec]
    · simp [hxy]

namespace Buffer

theorem Rep.operatorEq {h : Heap} {a b : Buffer} {ca cb : List Cell} {sa sb : Nat}
    (hra : a.Rep h ca sa) (hrb : b.Rep h cb sb) (La Lb : List Byte)
    (hva : ca.take sa = La.map some) (hvb : cb.take sb = Lb.map some) :
    a.operatorEq h b = .ok (decide (La = Lb)) := by
  have hla : La.length = sa := by
    have := congrArg List.length hva
    simp [Nat.min_eq_left hra.le] at this
    exact this.symm
  have hlb : Lb.length = sb := by
    have := congrArg List.length hvb
    simp [Nat.min_eq_left hrb.le] at this
    exact this.symm
  have hdiff : a.end_.diff a.begin = sa := hra.size
  unfold Buffer.operatorEq
  rw [hdiff, hra.size, hrb.size]
  by_cases hs : sa = sb
  · rw [if_pos hs]
    subst hs
    rcases hra with ⟨ha, hca, hsa⟩ | ⟨ka, ha, _, hka⟩
    · subst hsa
      have h1 : La = [] := List.length_eq_zero.mp hla
      have h2 : Lb = [] := List.length_eq_zero.mp hlb
      subst h1 h2
      simp [stdEqual]
    · rcases hrb with ⟨hb, hcb, hsb⟩ | ⟨kb, hb, _, hkb⟩
      · subst hsb
        have h1 : La = [] := List.length_eq_zero.mp hla
        have h2 : Lb = [] := List.length_eq_zero.mp hlb
        subst h1 h2
        simp [stdEqual]
      · subst ha hb
        exact stdEqual_spec hka hkb sa 0 0 La Lb (by omega) (by omega)
          (by simpa using hva) (by simpa using hvb)
  · rw [if_neg hs]
    have hne : La ≠ Lb := by
      intro heq
      apply hs
      rw [← hla, ← hlb, heq]
    simp [hne]

end Buffer

/-- C15: for buffers whose live bytes have been written, `a == b` is true
exactly when the live byte sequences are equal, that is when the sizes are
equal and the bytes agree index by index, whatever the capacities; `==` is
reflexive and symmetric and `!=` is its negation. -/
theorem operatorEq_iff_same_live_bytes (h : Heap) (a b : Buffer) (La Lb : List Byte)
    (hwa : a.WF h) (hwb : b.WF h)
    (ha : a.toString h = .ok (La.map some)) (hb : b.toString h = .ok (Lb.map some)) :
    a.operatorEq h b = .ok (decide (La = Lb)) ∧
      (La = Lb ↔ a.size = b.size ∧ ∀ i, i < a.size → La[i]? = Lb[i]?) ∧
      a.operatorEq h a = .ok true ∧
      b.operatorEq h a = a.operatorEq h b ∧
      a.operatorNe h b = .ok (!decide (La = Lb)) := by
  obtain ⟨ca, sa, hra⟩ := hwa.rep
  obtain ⟨cb, sb, hrb⟩ := hwb.rep
  rw [hra.toString] at ha
  rw [hrb.toString] at hb
  have hva : ca.take sa = La.map some := by injection ha
  have hvb : cb.take sb = Lb.map some := by injection hb
  have hla : La.length = sa := by
    have := congrArg List.length hva
    simp [Nat.min_eq_left hra.le] at this
    exact this.symm
  have hlb : Lb.length = sb := by
    have := congrArg List.length hvb
    simp [Nat.min_eq_left hrb.le] at this
    exact this.symm
  have hab := hra.operatorEq hrb La Lb hva hvb
  have hba := hrb.operatorEq hra Lb La hvb hva
  have haa := hra.operatorEq hra La La hva hva
  refine ⟨hab, ?_, ?_, ?_, ?_⟩
  · rw [hra.size, hrb.size]
    constructor
    · intro heq
      subst heq
      exact ⟨by omega, fun _ _ => rfl⟩
    · rintro ⟨hs, hi⟩
      apply List.ext_getElem?
      intro i
      by_cases hlt : i < sa
      · exact hi i hlt
      · rw [List.getElem?_eq_none (by omega), List.getElem?_eq_none (by omega)]
  · simpa using haa
  · rw [hab, hba]
    congr 1
    by_cases heq : La = Lb
    · simp [heq]
    · have : ¬ Lb = La := fun hc => heq hc.symm
      simp [heq, this]
  · simp only [Buffer.operatorNe, hab]

theorem operatorEq_iff_same_live_bytes_witness :
    Buffer.operatorEq
        [⟨true, [some 97, some 98, some 99, none]⟩, ⟨true, [some 97, some 98, some 99]⟩]
        ⟨⟨some 0, 0⟩, ⟨some 0, 3⟩, ⟨some 0, 4⟩⟩ ⟨⟨some 1, 0⟩, ⟨some 1, 3⟩, ⟨some 1, 3⟩⟩ =
        .ok (decide ([(97 : Byte), 98, 99] = [(97 : Byte), 98, 99])) ∧
      ([(97 : Byte), 98, 99] = [(97 : Byte), 98, 99] ↔
        Buffer.size ⟨⟨some 0, 0⟩, ⟨some 0, 3⟩, ⟨some 0, 4⟩⟩ =
          Buffer.size ⟨⟨some 1, 0⟩, ⟨some 1, 3⟩, ⟨some 1, 3⟩⟩ ∧
        ∀ i, i < Buffer.size ⟨⟨some 0, 0⟩, ⟨some 0, 3⟩, ⟨some 0, 4⟩⟩ →
          [(97 : Byte), 98, 99][i]? = [(97 : Byte), 98, 99][i]?) ∧
      Buffer.operatorEq
        [⟨true, [some 97, some 98, some 99, none]⟩, ⟨true, [some 97, some 98, some 99]⟩]
        ⟨⟨some 0, 0⟩, ⟨some 0, 3⟩, ⟨some 0, 4⟩⟩ ⟨⟨some 0, 0⟩, ⟨some 0, 3⟩, ⟨some 0, 4⟩⟩ =
        .ok true ∧
      Buffer.operatorEq
        [⟨true, [some 97, some 98, some 99, none]⟩, ⟨true, [some 97, some 98, some 99]⟩]
        ⟨⟨some 1, 0⟩, ⟨some 1, 3⟩, ⟨some 1, 3⟩⟩ ⟨⟨some 0, 0⟩, ⟨some 0, 3⟩, ⟨some 0, 4⟩⟩ =
      Buffer.operatorEq
        [⟨true, [some 97, some 98, some 99, none]⟩, ⟨true, [some 97, some 98, some 99]⟩]
        ⟨⟨some 0, 0⟩, ⟨some 0, 3⟩, ⟨some 0, 4⟩⟩ ⟨⟨some 1, 0⟩, ⟨some 1, 3⟩, ⟨some 1, 3⟩⟩ ∧
      Buffer.operatorNe
        [⟨true, [some 97, some 98, some 99, none]⟩, ⟨true, [some 97, some 98, some 99]⟩]
        ⟨⟨some 0, 0⟩, ⟨some 0, 3⟩, ⟨some 0, 4⟩⟩ ⟨⟨some 1, 0⟩, ⟨some 1, 3⟩, ⟨some 1, 3⟩⟩ =
        .ok (!decide ([(97 : Byte), 98, 99] = [(97 : Byte), 98, 99])) :=
  operatorEq_iff_same_live_bytes _ _ _ [97, 98, 99] [97, 98, 99] (by decide) (by decide)
    rfl rfl

/-! ## Copy assignment -/

namespace Buffer

theorem Rep.alloc_mono {h : Heap} {b : Buffer} {cells : List Cell} {s : Nat}
    (hr : b.Rep h cells s) (n : Nat) :
    b.Rep (h ++ [(⟨true, List.replicate n none⟩ : Block)]) cells s := by
  rcases hr with hnull | ⟨k, hb, hs, hk⟩
  · exact Or.inl hnull
  · exact Or.inr ⟨k, hb, hs, getElem?_alloc_old hk n⟩

/-- Releasing the storage of `b` leaves every other block as it was. -/
theorem Rep.release_frame {h : Heap} {b : Buffer} {cells : List Cell} {s : Nat}
    (hr : b.Rep h cells s) :
    ∃ h1, release h b = .ok h1 ∧ h1.length = h.length ∧
      ∀ j, b._begin ≠ ⟨some j, 0⟩ → h1[j]? = h[j]? := by
  rcases hr with ⟨hb, _, _⟩ | ⟨k, hb, _, hk⟩
  · subst hb; exact ⟨h, rfl, rfl, fun _ _ => rfl⟩
  · subst hb
    refine ⟨h.set k ⟨false, cells⟩, ?_, by simp, ?_⟩
    · simp [release, Ptr.isNonNull, nullptr, free_ok hk]
    · intro j hj
      have hne : k ≠ j := by
        intro hc; apply hj; rw [hc]
      rw [List.getElem?_set_ne hne]

/-- Copying a range onto itself leaves every block as it was. -/
theorem memcpy_self {h : Heap} {k : Nat} {cells : List Cell}
    (hk : h[k]? = some ⟨true, cells⟩) (n : Nat) (hn : n ≤ cells.length) :
    ∃ h1, memcpy h ⟨some k, 0⟩ ⟨some k, 0⟩ n = .ok h1 ∧ h1.length = h.length ∧
      ∀ j : Nat, h1[j]? = h[j]? := by
  have hlen : (cells.take n).length = n := by simp [hn]
  obtain ⟨h1, hst, hl, hg, hfr⟩ := store_spec hk 0 (cells.take n) (by rw [hlen]; omega)
  refine ⟨h1, ?_, hl, ?_⟩
  · have hld := load_ok hk 0 n (by omega)
    simp only [List.drop_zero] at hld
    simp [memcpy, hld, hst]
  · intro j
    by_cases hj : j = k
    · subst hj
      rw [hg, hk, hlen]
      simp
    · exact hfr j hj

theorem Rep.copyAssign {h : Heap} {d s : Buffer} {cd cs : List Cell} {sd ss : Nat}
    (hrd : d.Rep h cd sd) (hrs : s.Rep h cs ss) :
    ∃ h1 d1, d.copyAssign h s = .ok (h1, d1) ∧
      d1.Rep h1 (if cd.length < ss then cs.take ss else cs.take ss ++ cd.drop ss) ss ∧
      s.Rep h1 cs ss := by
  have hsz := hrs.size
  have hcap := hrd.capacity
  rcases hrs with ⟨hs, hcs, hss⟩ | ⟨ks, hs, hle, hks⟩
  · -- the source has no storage: nothing is copied
    subst hs hcs hss
    have hnot : ¬ cd.length < 0 := by omega
    rcases hrd with ⟨hd, hcd, _⟩ | ⟨kd, hd, _, hkd⟩
    · subst hd hcd
      exact ⟨h, Buffer.empty, rfl, Or.inl ⟨rfl, rfl, rfl⟩, Or.inl ⟨rfl, rfl, rfl⟩⟩
    · subst hd
      refine ⟨h, ⟨⟨some kd, 0⟩, ⟨some kd, 0⟩, ⟨some kd, cd.length⟩⟩, ?_, ?_,
        Or.inl ⟨rfl, rfl, rfl⟩⟩
      · simp [Buffer.copyAssign, Buffer.size, Buffer.capacity, Ptr.diff, Buffer.empty, nullptr,
          memcpy, load, store, Ptr.add]
      · rw [if_neg hnot]
        exact Rep.ofBlock hkd (by omega) (by simp) rfl rfl rfl
  · subst hs
    rcases hrd with ⟨hd, hcd, _⟩ | ⟨kd, hd, hsd, hkd⟩
    · -- the destination has no storage
      subst hd hcd
      by_cases hs0 : ss = 0
      · subst hs0
        refine ⟨h, Buffer.empty, ?_, Or.inl ⟨rfl, by simp, rfl⟩, Or.inr ⟨ks, rfl, hle, hks⟩⟩
        simp [Buffer.copyAssign, Buffer.size, Buffer.capacity, Ptr.diff, Buffer.empty, nullptr,
          memcpy, load, store, Ptr.add]
      · have hlt := lt_of_getElem? hks
        obtain ⟨h3, e3, _, hg3, hf3⟩ := memcpy_spec (getElem?_alloc_old hks ss)
          (getElem?_alloc_new h ss) (by omega) 0 0 ss (by omega) (by simp)
        have hk3 : h3[ks]? = some ⟨true, cs⟩ := by
          rw [hf3 ks (by omega)]; exact getElem?_alloc_old hks ss
        have hpos : 0 < ss := by omega
        refine ⟨h3, ⟨⟨some h.length, 0⟩, ⟨some h.length, ss⟩, ⟨some h.length, ss⟩⟩, ?_, ?_,
          Or.inr ⟨ks, rfl, hle, hk3⟩⟩
        · simp [Buffer.copyAssign, Buffer.size, Buffer.capacity, Ptr.diff, Buffer.empty, nullptr,
            hpos, alloc, Buffer.release, Ptr.isNonNull, Ptr.add, e3]
        · have hre : ([] : List Cell).length < ss := by simpa using hpos
          rw [if_pos hre]
          simp at hg3
          exact Rep.ofBlock hg3 (by simp; omega) (by simp; omega) rfl rfl rfl
    · subst hd
      by_cases hsame : kd = ks
      · -- source and destination share their storage: the copy is onto itself
        subst hsame
        have hcells : cd = cs := by
          have := hkd.symm.trans hks
          simpa using this
        subst hcells
        obtain ⟨h1, e1, _, hf1⟩ := memcpy_self hkd ss hle
        have hk1 : h1[kd]? = some ⟨true, cd⟩ := by rw [hf1 kd]; exact hkd
        have hnot : ¬ cd.length < ss := by omega
        refine ⟨h1, ⟨⟨some kd, 0⟩, ⟨some kd, ss⟩, ⟨some kd, cd.length⟩⟩, ?_, ?_,
          Or.inr ⟨kd, rfl, hle, hk1⟩⟩
        · simp [Buffer.copyAssign, Buffer.size, Buffer.capacity, Ptr.diff, hnot, Ptr.add, e1]
        · rw [if_neg hnot, List.take_append_drop]
          exact Rep.ofBlock hk1 hle rfl rfl rfl rfl
      · by_cases hre : cd.length < ss
        · -- reallocation
          have hlts := lt_of_getElem? hks
          have hltd := lt_of_getElem? hkd
          have hkd1 := getElem?_alloc_old hkd ss
          have hk2 : (List.set (h ++ [(⟨true, List.replicate ss none⟩ : Block)]) kd
              ⟨false, cd⟩)[ks]? = some ⟨true, cs⟩ := by
            rw [List.getElem?_set_ne hsame]; exact getElem?_alloc_old hks ss
          have hn2 : (List.set (h ++ [(⟨true, List.replicate ss none⟩ : Block)]) kd
              ⟨false, cd⟩)[h.length]? = some ⟨true, List.replicate ss none⟩ := by
            rw [List.getElem?_set_ne (by omega)]; exact getElem?_alloc_new h ss
          obtain ⟨h3, e3, _, hg3, hf3⟩ := memcpy_spec hk2 hn2 (by omega) 0 0 ss (by omega)
            (by simp)
          have hk3 : h3[ks]? = some ⟨true, cs⟩ := by
            rw [hf3 ks (by omega)]; exact hk2
          refine ⟨h3, ⟨⟨some h.length, 0⟩, ⟨some h.length, ss⟩, ⟨some h.length, ss⟩⟩, ?_, ?_,
            Or.inr ⟨ks, rfl, hle, hk3⟩⟩
          · simp [Buffer.copyAssign, Buffer.size, Buffer.capacity, Ptr.diff, hre, alloc,
              Buffer.release, Ptr.isNonNull, nullptr, free_ok hkd1, Ptr.add, e3]
          · rw [if_pos hre]
            simp at hg3
            exact Rep.ofBlock hg3 (by simp; omega) (by simp; omega) rfl rfl rfl
        · -- the storage of the destination is reused
          obtain ⟨h1, e1, _, hg1, hf1⟩ := memcpy_spec hks hkd hsame 0 0 ss (by omega)
            (by omega)
          have hk1 : h1[ks]? = some ⟨true, cs⟩ := by
            rw [hf1 ks (Ne.symm hsame)]; exact hks
          refine ⟨h1, ⟨⟨some kd, 0⟩, ⟨some kd, ss⟩, ⟨some kd, cd.length⟩⟩, ?_, ?_,
            Or.inr ⟨ks, rfl, hle, hk1⟩⟩
          · simp [Buffer.copyAssign, Buffer.size, Buffer.capacity, Ptr.diff, hre, Ptr.add, e1]
          · rw [if_neg hre]
            simp at hg1
            exact Rep.ofBlock hg1 (by simp; omega) (by simp; omega) rfl rfl rfl

end Buffer

/-- C16: for every destination `d` and every source `s`, the same object
included, after `d = s` the destination has the size and the live bytes of `s`
(so `d == s` once those bytes have been written), its capacity is unchanged
when it was at least `s.size()` and is exactly `s.size()` otherwise, and `s`
still holds the same bytes. -/
theorem copyAssign_copies_source (h : Heap) (d s : Buffer) (L : List Cell)
    (hwd : d.WF h) (hws : s.WF h) (hL : s.toString h = .ok L) :
    ∃ h1 d1, d.copyAssign h s = .ok (h1, d1) ∧ d1.size = s.size ∧
      d1.toString h1 = .ok L ∧
      (s.size ≤ d.capacity → d1.capacity = d.capacity) ∧
      (d.capacity < s.size → d1.capacity = s.size) ∧
      s.WF h1 ∧ s.toString h1 = .ok L ∧
      ∀ Lb : List Byte, L = Lb.map some → d1.operatorEq h1 s = .ok true := by
  obtain ⟨cd, sd, hrd⟩ := hwd.rep
  obtain ⟨cs, ss, hrs⟩ := hws.rep
  have hle := hrs.le
  rw [hrs.toString] at hL
  cases hL
  obtain ⟨h1, d1, he, hr1, hrs1⟩ := hrd.copyAssign hrs
  have hview : (if cd.length < ss then cs.take ss else cs.take ss ++ cd.drop ss).take ss =
      cs.take ss := by
    split
    · rw [List.take_take, Nat.min_self]
    · rw [List.take_left' (by simp; omega)]
  refine ⟨h1, d1, he, ?_, ?_, ?_, ?_, hrs1.wf, hrs1.toString, ?_⟩
  · rw [hr1.size, hrs.size]
  · rw [hr1.toString, hview]
  · intro hfit
    rw [hrs.size, hrd.capacity] at hfit
    rw [hr1.capacity, hrd.capacity, if_neg (by omega)]
    simp; omega
  · intro hgrow
    rw [hrs.size, hrd.capacity] at hgrow
    rw [hr1.capacity, hrs.size, if_pos hgrow]
    simp; omega
  · intro Lb hLb
    have := hr1.operatorEq hrs1 Lb Lb (by rw [hview]; exact hLb) hLb
    simpa using this

theorem copyAssign_copies_source_witness :
    ∃ h1 d1, Buffer.copyAssign exampleHeap exampleAbc exampleAbc = .ok (h1, d1) ∧
      d1.size = exampleAbc.size ∧
      d1.toString h1 = .ok [some 97, some 98, some 99] ∧
      (exampleAbc.size ≤ exampleAbc.capacity → d1.capacity = exampleAbc.capacity) ∧
      (exampleAbc.capacity < exampleAbc.size → d1.capacity = exampleAbc.size) ∧
      exampleAbc.WF h1 ∧ exampleAbc.toString h1 = .ok [some 97, some 98, some 99] ∧
      ∀ Lb : List Byte, [some (97 : Byte), some 98, some 99] = Lb.map some →
        d1.operatorEq h1 exampleAbc = .ok true :=
  copyAssign_copies_source exampleHeap exampleAbc exampleAbc _ (by decide) (by decide) rfl

/-! ## Iteration -/

theorem traverse_spec {h : Heap} {k : Nat} {cells : List Cell}
    (hk : h[k]? = some ⟨true, cells⟩) :
    ∀ (n o : Nat), o + n ≤ cells.length →
      traverse h ⟨some k, o⟩ ⟨some k, o + n⟩ = .ok ((cells.drop o).take n) := by
  intro n
  induction n with
  | zero =>
    intro o _
    rw [traverse]
    simp
  | succ n ih =>
    intro o hb
    have hne : ¬ ((⟨some k, o⟩ : Ptr) = ⟨some k, o + (n + 1)⟩) := by
      simp
    have hl := load_ok hk o 1 (by omega)
    have hrec := ih (o + 1) (by omega)
    have hidx : o + 1 + n = o + (n + 1) := by omega
    rw [hidx] at hrec
    rw [traverse]
    simp only [hne, ↓reduceIte]
    split
    · rename_i e he
      rw [hl] at he
      cases he
    · rename_i cs he
      rw [hl] at he
      cases he
      simp only [Ptr.add, hrec]
      rw [Nat.add_comm n 1, List.take_add, List.drop_drop]

theorem reverse_take_one (X : List Cell) : (X.take 1).reverse = X.take 1 := by
  cases X <;> simp

theorem rtraverse_spec {h : Heap} {k : Nat} {cells : List Cell}
    (hk : h[k]? = some ⟨true, cells⟩) :
    ∀ (n o : Nat), o + n ≤ cells.length →
      rtraverse h ⟨⟨some k, o + n⟩⟩ ⟨⟨some k, o⟩⟩ = .ok ((cells.drop o).take n).reverse := by
  intro n
  induction n with
  | zero =>
    intro o _
    rw [rtraverse]
    simp
  | succ n ih =>
    intro o hb
    have hne : ¬ ((⟨⟨some k, o + (n + 1)⟩⟩ : ReverseIterator) = ⟨⟨some k, o⟩⟩) := by
      simp
    have hnz : ¬ (o + (n + 1) = 0) := by omega
    have hidx : o + (n + 1) - 1 = o + n := by omega
    have hl := load_ok hk (o + n) 1 (by omega)
    have hrec := ih o (by omega)
    rw [rtraverse]
    simp only [hne, hnz, ↓reduceIte, ↓reduceDIte, Ptr.sub, hidx, hl, hrec]
    rw [List.take_add, List.reverse_append, List.drop_drop, reverse_take_one]

/-- C17: forward traversal from `begin()` to `end()` visits the live bytes
`L` in order, the sequence `toString()` shows, and reverse traversal from
`rbegin()` to `rend()` visits them in reverse order. -/
theorem traversal_visits_live_bytes (h : Heap) (b : Buffer) (L : List Cell)
    (hwf : b.WF h) (hL : b.toString h = .ok L) :
    traverse h b.begin b.end_ = .ok L ∧ rtraverse h b.rbegin b.rend = .ok L.reverse ∧
      traverse h b.begin b.end_ = b.toString h := by
  obtain ⟨cells, s, hr⟩ := hwf.rep
  rw [hr.toString] at hL
  cases hL
  have key : traverse h b.begin b.end_ = .ok (cells.take s) ∧
      rtraverse h b.rbegin b.rend = .ok (cells.take s).reverse := by
    rcases hr with ⟨hb, hc, hs⟩ | ⟨k, hb, hs, hk⟩
    · subst hb hc hs
      constructor
      · rw [traverse]; simp [Buffer.begin, Buffer.end_, Buffer.empty]
      · rw [rtraverse]; simp [Buffer.rbegin, Buffer.rend, Buffer.empty]
    · subst hb
      have h1 := traverse_spec hk s 0 (by omega)
      have h2 := rtraverse_spec hk s 0 (by omega)
      simp only [Nat.zero_add, List.drop_zero] at h1 h2
      exact ⟨h1, h2⟩
  refine ⟨key.1, key.2, ?_⟩
  rw [key.1]
  exact hr.toString.symm

theorem traversal_visits_live_bytes_witness :
    traverse [⟨true, [some 97, some 98, some 99]⟩]
        (Buffer.begin ⟨⟨some 0, 0⟩, ⟨some 0, 3⟩, ⟨some 0, 3⟩⟩)
        (Buffer.end_ ⟨⟨some 0, 0⟩, ⟨some 0, 3⟩, ⟨some 0, 3⟩⟩) =
        .ok [some 97, some 98, some 99] ∧
      rtraverse [⟨true, [some 97, some 98, some 99]⟩]
        (Buffer.rbegin ⟨⟨some 0, 0⟩, ⟨some 0, 3⟩, ⟨some 0, 3⟩⟩)
        (Buffer.rend ⟨⟨some 0, 0⟩, ⟨some 0, 3⟩, ⟨some 0, 3⟩⟩) =
        .ok [some (97 : Byte), some 98, some 99].reverse ∧
      traverse [⟨true, [some 97, some 98, some 99]⟩]
        (Buffer.begin ⟨⟨some 0, 0⟩, ⟨some 0, 3⟩, ⟨some 0, 3⟩⟩)
        (Buffer.end_ ⟨⟨some 0, 0⟩, ⟨some 0, 3⟩, ⟨some 0, 3⟩⟩) =
      Buffer.toString [⟨true, [some 97, some 98, some 99]⟩]
        ⟨⟨some 0, 0⟩, ⟨some 0, 3⟩, ⟨some 0, 3⟩⟩ :=
  traversal_visits_live_bytes _ _ _ (by decide) rfl

/-! ## The state predicate -/

namespace Buffer

/-- A valid buffer satisfies the state predicate. -/
theorem WF.inv {h : Heap} {b : Buffer} (hwf : b.WF h) : b.Inv := by
  obtain ⟨cells, s, hr⟩ := hwf.rep
  have hle := hr.le
  refine ⟨by rw [hr.size, hr.capacity]; exact hle, ?_⟩
  intro hnull
  rcases hr with ⟨hb, _, _⟩ | ⟨k, hb, _, _⟩
  · subst hb; exact ⟨rfl, rfl⟩
  · subst hb; simp [nullptr] at hnull

theorem empty_wf (h : Heap) : Buffer.empty.WF h := by
  simp [Buffer.WF, Buffer.empty, nullptr]

theorem sized_wf (h : Heap) (n : Nat) (opt : Options) :
    ∃ h1 b1, Buffer.sized h n opt = .ok (h1, b1) ∧ b1.WF h1 ∧ b1.size = n ∧
      b1.capacity = n := by
  by_cases ho : opt = .Initialize
  · obtain ⟨h1, hst, _, hg, _⟩ := store_spec (getElem?_alloc_new h n) 0
      (List.replicate n (some (0 : Byte))) (by simp)
    have hr : Buffer.Rep h1 ⟨⟨some h.length, 0⟩, ⟨some h.length, n⟩, ⟨some h.length, n⟩⟩
        (List.replicate n (some (0 : Byte))) n := by
      simp at hg
      exact Rep.ofBlock hg (by simp) (by simp) rfl rfl rfl
    refine ⟨h1, _, ?_, hr.wf, hr.size, ?_⟩
    · simp [Buffer.sized, alloc, ho, memset, hst, Ptr.add]
    · rw [hr.capacity]; simp
  · have hr : Buffer.Rep (h ++ [(⟨true, List.replicate n none⟩ : Block)])
        ⟨⟨some h.length, 0⟩, ⟨some h.length, n⟩, ⟨some h.length, n⟩⟩
        (List.replicate n none) n :=
      Rep.ofBlock (getElem?_alloc_new h n) (by simp) (by simp) rfl rfl rfl
    refine ⟨_, _, ?_, hr.wf, hr.size, ?_⟩
    · simp [Buffer.sized, alloc, ho, Ptr.add]
    · rw [hr.capacity]; simp

theorem reserve_wf (h : Heap) (b : Buffer) (n : Nat) (hwf : b.WF h) :
    ∃ h1 b1, b.reserve h n = .ok (h1, b1) ∧ b1.WF h1 := by
  obtain ⟨cells, s, hr⟩ := hwf.rep
  obtain ⟨h1, b1, he, hr1⟩ := hr.reserve n
  exact ⟨h1, b1, he, hr1.wf⟩

theorem resize_wf (h : Heap) (b : Buffer) (n : Nat) (opt : Options) (hwf : b.WF h)
    (hok : opt = .Shrink → n = 0 ∨ b.size ≤ n) :
    ∃ h1 b1, b.resize h n opt = .ok (h1, b1) ∧ b1.WF h1 := by
  obtain ⟨cells, s, hr⟩ := hwf.rep
  have hle := hr.le
  rw [hr.size] at hok
  by_cases hz : n = 0 ∧ opt = .Shrink
  · obtain ⟨hn, ho⟩ := hz
    subst hn ho
    obtain ⟨h1, he, _⟩ := hr.resize_shrink_zero
    exact ⟨h1, Buffer.empty, he, empty_wf h1⟩
  · by_cases hre : opt = .Shrink ∨ cells.length < n
    · have hsn : s ≤ n := by
        rcases hre with ho | hc
        · rcases hok ho with hn | hn
          · exact absurd ⟨hn, ho⟩ hz
          · exact hn
        · omega
      obtain ⟨h1, b1, he, hr1⟩ := hr.resize_realloc n opt hre hz hsn
      exact ⟨h1, b1, he, hr1.wf⟩
    · have hns : opt ≠ .Shrink := fun ho => hre (Or.inl ho)
      have hn : n ≤ cells.length := by
        have : ¬ cells.length < n := fun hc => hre (Or.inr hc)
        omega
      obtain ⟨h1, b1, he, hr1⟩ := hr.resize_inplace n opt hns hn
      exact ⟨h1, b1, he, hr1.wf⟩

theorem assign_wf (h : Heap) (b : Buffer) (x : List Byte) (hwf : b.WF h) :
    ∃ h1 b1, b.assign h x = .ok (h1, b1) ∧ b1.WF h1 := by
  obtain ⟨cells, s, hr⟩ := hwf.rep
  obtain ⟨h1, b1, he, hr1⟩ := hr.assign x
  exact ⟨h1, b1, he, hr1.wf⟩

theorem insert_wf (h : Heap) (b : Buffer) (p : Nat) (x : List Byte) (hwf : b.WF h)
    (hp : p ≤ b.size) (hfit : b.size + x.length ≤ b.capacity) :
    ∃ h1 b1, b.insert h (b.begin.add p) x = .ok (h1, b1) ∧ b1.WF h1 := by
  obtain ⟨cells, s, hr⟩ := hwf.rep
  rw [hr.size] at hp hfit
  rw [hr.capacity] at hfit
  obtain ⟨h1, b1, he, hr1⟩ := hr.insert_inplace p x hp hfit
  exact ⟨h1, b1, he, hr1.wf⟩

theorem eraseRange_wf (h : Heap) (b : Buffer) (f l : Nat) (hwf : b.WF h)
    (hf : f ≤ l) (hl : l ≤ b.size) :
    ∃ h1 b1 pos, b.eraseRange h (b.begin.add f) (b.begin.add l) = .ok (h1, b1, pos) ∧
      b1.WF h1 := by
  obtain ⟨cells, s, hr⟩ := hwf.rep
  rw [hr.size] at hl
  obtain ⟨h1, b1, he, hr1⟩ := hr.eraseRange f l hf hl
  exact ⟨h1, b1, _, he, hr1.wf⟩

theorem erase_wf (h : Heap) (b : Buffer) (p : Nat) (hwf : b.WF h) (hp : p < b.size) :
    ∃ h1 b1 pos, b.erase h (b.begin.add p) = .ok (h1, b1, pos) ∧ b1.WF h1 := by
  rw [erase_eq_eraseRange]
  exact eraseRange_wf h b p (p + 1) hwf (by omega) (by omega)

theorem clear_wf (h : Heap) (b : Buffer) (hwf : b.WF h) : b.clear.WF h := by
  obtain ⟨cells, s, hr⟩ := hwf.rep
  rcases hr with ⟨hb, _, _⟩ | ⟨k, hb, _, hk⟩
  · subst hb; exact empty_wf h
  · subst hb
    exact (Rep.ofBlock hk (Nat.zero_le _) rfl rfl rfl rfl : Buffer.Rep h _ cells 0).wf

theorem copyAssign_wf (h : Heap) (d s : Buffer) (hwd : d.WF h) (hws : s.WF h) :
    ∃ h1 d1, d.copyAssign h s = .ok (h1, d1) ∧ d1.WF h1 ∧ s.WF h1 := by
  obtain ⟨cd, sd, hrd⟩ := hwd.rep
  obtain ⟨cs, ss, hrs⟩ := hws.rep
  obtain ⟨h1, d1, he, hr1, hrs1⟩ := hrd.copyAssign hrs
  exact ⟨h1, d1, he, hr1.wf, hrs1.wf⟩

end Buffer

namespace Buffer

/-- Whatever the uninitialised members hold, a constructor from bytes that
completes leaves cursors that satisfy the state predicate. -/
theorem ofStringView_inv (h : Heap) (raw : Buffer) (x : List Byte) (h1 : Heap) (b1 : Buffer)
    (hok : Buffer.ofStringView h raw x = .ok (h1, b1)) : b1.Inv := by
  unfold Buffer.ofStringView Buffer.assign at hok
  by_cases hc : x.length > raw.capacity ∨ raw._begin.isNonNull = false
  · simp only [hc, ↓reduceIte, alloc] at hok
    split at hok
    · cases hok
    · rename_i hr
      split at hr
      · cases hr
      · cases hr
        split at hok
        · cases hok
        · cases hok
          simp [Buffer.Inv, Buffer.size, Buffer.capacity, Ptr.diff, Ptr.add, nullptr]
  · simp only [hc, ↓reduceIte] at hok
    split at hok
    · cases hok
    · cases hok
      have h2 : x.length ≤ raw.capacity := by
        have : ¬ x.length > raw.capacity := fun hgt => hc (Or.inl hgt)
        omega
      have h3 : raw._begin.isNonNull = true := by
        cases hnn : raw._begin.isNonNull
        · exact absurd (Or.inr hnn) hc
        · rfl
      simp only [Buffer.capacity, Ptr.diff] at h2
      refine ⟨?_, ?_⟩
      · simp only [Buffer.size, Buffer.capacity, Ptr.diff, Ptr.add]
        omega
      · intro hnull
        simp only [Ptr.isNonNull] at h3
        simp at h3
        exact absurd hnull h3

end Buffer

/-- The part of C19 the code does implement: the state predicate holds for
the empty and the sized constructor, for the constructor from bytes whenever it
completes, and after every mutator call that the code carries through:
`reserve`, `assign`, both `erase`, `clear`, `swap`, move and copy assignment,
`resize` unless it shrinks below the size, and `insert` when the capacity
suffices. -/
theorem state_predicate_kept_on_completing_paths (h : Heap) (b c : Buffer)
    (hwf : b.WF h) (hwc : c.WF h) :
    Buffer.empty.Inv ∧
    (∀ n opt, ∃ h1 b1, Buffer.sized h n opt = .ok (h1, b1) ∧ b1.Inv) ∧
    (∀ raw x h1 b1, Buffer.ofStringView h raw x = .ok (h1, b1) → b1.Inv) ∧
    (∀ x, ∃ h1 b1, Buffer.ofStringView h Buffer.empty x = .ok (h1, b1) ∧ b1.Inv) ∧
    (∀ n, ∃ h1 b1, b.reserve h n = .ok (h1, b1) ∧ b1.Inv) ∧
    (∀ n opt, (opt = .Shrink → n = 0 ∨ b.size ≤ n) →
      ∃ h1 b1, b.resize h n opt = .ok (h1, b1) ∧ b1.Inv) ∧
    (∀ x, ∃ h1 b1, b.assign h x = .ok (h1, b1) ∧ b1.Inv) ∧
    (∀ p x, p ≤ b.size → b.size + x.length ≤ b.capacity →
      ∃ h1 b1, b.insert h (b.begin.add p) x = .ok (h1, b1) ∧ b1.Inv) ∧
    (∀ p, p < b.size → ∃ h1 b1 pos, b.erase h (b.begin.add p) = .ok (h1, b1, pos) ∧ b1.Inv) ∧
    (∀ f l, f ≤ l → l ≤ b.size →
      ∃ h1 b1 pos, b.eraseRange h (b.begin.add f) (b.begin.add l) = .ok (h1, b1, pos) ∧
        b1.Inv) ∧
    b.clear.Inv ∧
    ((swap b c).1.Inv ∧ (swap b c).2.Inv) ∧
    ((Buffer.moveAssign b c).1.Inv ∧ (Buffer.moveAssign b c).2.Inv) ∧
    (∃ h1 b1, b.copyAssign h c = .ok (h1, b1) ∧ b1.Inv) := by
  refine ⟨(Buffer.empty_wf h).inv, ?_, ?_, ?_, ?_, ?_, ?_, ?_, ?_, ?_,
    (Buffer.clear_wf h b hwf).inv, ⟨hwc.inv, hwf.inv⟩, ⟨hwc.inv, hwf.inv⟩, ?_⟩
  · intro n opt
    obtain ⟨h1, b1, he, hw, _⟩ := Buffer.sized_wf h n opt
    exact ⟨h1, b1, he, hw.inv⟩
  · intro raw x h1 b1 hok
    exact Buffer.ofStringView_inv h raw x h1 b1 hok
  · intro x
    obtain ⟨h1, b1, he, hw⟩ := Buffer.assign_wf h Buffer.empty x (Buffer.empty_wf h)
    exact ⟨h1, b1, he, hw.inv⟩
  · intro n
    obtain ⟨h1, b1, he, hw⟩ := Buffer.reserve_wf h b n hwf
    exact ⟨h1, b1, he, hw.inv⟩
  · intro n opt hok
    obtain ⟨h1, b1, he, hw⟩ := Buffer.resize_wf h b n opt hwf hok
    exact ⟨h1, b1, he, hw.inv⟩
  · intro x
    obtain ⟨h1, b1, he, hw⟩ := Buffer.assign_wf h b x hwf
    exact ⟨h1, b1, he, hw.inv⟩
  · intro p x hp hfit
    obtain ⟨h1, b1, he, hw⟩ := Buffer.insert_wf h b p x hwf hp hfit
    exact ⟨h1, b1, he, hw.inv⟩
  · intro p hp
    obtain ⟨h1, b1, pos, he, hw⟩ := Buffer.erase_wf h b p hwf hp
    exact ⟨h1, b1, pos, he, hw.inv⟩
  · intro f l hf hl
    obtain ⟨h1, b1, pos, he, hw⟩ := Buffer.eraseRange_wf h b f l hwf hf hl
    exact ⟨h1, b1, pos, he, hw.inv⟩
  · obtain ⟨h1, b1, he, hw, _⟩ := Buffer.copyAssign_wf h b c hwf hwc
    exact ⟨h1, b1, he, hw.inv⟩

/-- Every reallocating `insert` at a valid position of a valid buffer, and
every `resize(n, Shrink)` with `0 < n < size()` of a valid buffer, faults: on
these two paths, which are within the documented preconditions, no call ends
in a state, so none ends in one that satisfies the state predicate. -/
theorem faulting_paths_never_complete (h : Heap) (b : Buffer) (hwf : b.WF h) :
    (∀ p x, p ≤ b.size → b.capacity < b.size + x.length →
      ∃ e, b.insert h (b.begin.add p) x = .error e) ∧
    (∀ n, 0 < n → n < b.size → b.resize h n .Shrink = .error .outOfBounds) := by
  obtain ⟨cells, s, hr⟩ := hwf.rep
  rw [hr.size, hr.capacity]
  exact ⟨fun p x hp hg => ⟨_, hr.insert_realloc_faults p x hp hg⟩,
    fun n hn hns => hr.resize_shrink_overflow n hn hns⟩

/-- On the reallocating branch of `resize` the byte count handed to `memcpy`
is `resizeCopyLength`: when that copy faults, so does `resize`. -/
theorem resize_realloc_copies (h : Heap) (b : Buffer) (n : Nat) (opt : Options) (e : Fault)
    (hnz : ¬(n = 0 ∧ opt = .Shrink)) (hre : opt = .Shrink ∨ b.capacity < n)
    (hf : memcpy (alloc h n).1 (alloc h n).2 b._begin (b.resizeCopyLength n) = .error e) :
    b.resize h n opt = .error e := by
  simp only [Buffer.resizeCopyLength] at hf
  simp only [Buffer.resize, if_neg hnz, if_pos hre, hf]

/-- C20, failing input: on the buffer `"abc"` the call `resize(1, Shrink)`
reallocates and copies 3 bytes, not `min(3, 1) = 1`; the copy exceeds the one
byte the new storage holds and runs out of bounds. -/
theorem resize_copy_length_is_old_size :
    Buffer.resizeCopyLength ⟨⟨some 0, 0⟩, ⟨some 0, 3⟩, ⟨some 0, 3⟩⟩ 1 = 3 ∧
      min (Buffer.size ⟨⟨some 0, 0⟩, ⟨some 0, 3⟩, ⟨some 0, 3⟩⟩) 1 = 1 ∧
      ¬ (Buffer.resizeCopyLength ⟨⟨some 0, 0⟩, ⟨some 0, 3⟩, ⟨some 0, 3⟩⟩ 1 ≤ 1) ∧
      memcpy (alloc [⟨true, [some 97, some 98, some 99]⟩] 1).1
        (alloc [⟨true, [some 97, some 98, some 99]⟩] 1).2 ⟨some 0, 0⟩
        (Buffer.resizeCopyLength ⟨⟨some 0, 0⟩, ⟨some 0, 3⟩, ⟨some 0, 3⟩⟩ 1) =
        .error .outOfBounds :=
  ⟨rfl, rfl, by decide, rfl⟩

end BufferModel
